import Mathlib

/-!
Verification of the constrained graph-traversal core of the SMD
visualization repository (`path_visualize.py`, `visualize_node.py`).

The Python code is shallowly embedded as executable Lean functions:
  * edge records become the `Edge` structure (JSON dicts with the fields the
    traversal reads: "from", "to", "type", "properties", "context");
  * Python `set`s become `Finset String` (context-id sets) or `List String`
    with no-duplicate insertion (node sets, whose iteration order the code
    relies on only through membership);
  * Python dicts keyed by `(from, to)` become association lists where a
    later binding shadows an earlier one;
  * the unbounded `while` loops of the BFS and of the round-robin neighbor
    selection are driven by an explicit fuel argument; every claim proved
    about them is either fuel-generic or supplies a provably sufficient
    fuel, and concrete evaluations stop as soon as the loop's own exit
    condition fires.
Python's stable `list.sort` is modelled by a stable insertion sort
(`stableSort`), which produces the same output as any stable sort with the
same key.
-/

/-- One element of an edge's "context" array: either a JSON object carrying
an optional "id" and "name" (the "name" is presentation-only), or a bare
string id.  An empty JSON object is not modelled; object items count as
truthy. -/
inductive CtxItem where
  | obj (id : Option String) (name : Option String)
  | str (s : String)
deriving DecidableEq

/-- The value of an edge's "context" field: the code accepts either a single
object or an array (`ctx_list = context if isinstance(context, list) else
[context]`). -/
inductive ContextData where
  | one (c : CtxItem)
  | many (l : List CtxItem)
deriving DecidableEq

/-- Python truthiness of a context item (`if not context`): the empty string
is falsy, objects are truthy. -/
def ctxItemTruthy : CtxItem → Bool
  | .obj _ _ => true
  | .str s => !(s = "")

/-- Python truthiness of the whole "context" value: `None`, `[]`, `""` are
falsy. -/
def ctxTruthy : Option ContextData → Bool
  | none => false
  | some (.one c) => ctxItemTruthy c
  | some (.many l) => !l.isEmpty

/-- Normalisation `context if isinstance(context, list) else [context]`. -/
def ctxToList : ContextData → List CtxItem
  | .one c => [c]
  | .many l => l

/-- `get_context_ids` from both scripts: collect the truthy "id" fields of
object items and every bare-string item into a set. -/
def get_context_ids (context : Option ContextData) : Finset String :=
  if ctxTruthy context = false then ∅
  else
    match context with
    | none => ∅
    | some cd =>
      (ctxToList cd).foldl
        (fun ids ctx =>
          match ctx with
          | .obj i _ =>
            match i with
            | some s => if s = "" then ids else insert s ids
            | none => ids
          | .str s => insert s ids)
        ∅

/-- A well-formed edge record ("from"/"to"/"type" present), as consumed by
the traversal code.  The free-form "properties" bag is presentation-only and
modelled as an opaque key-value list. -/
structure Edge where
  efrom : String
  eto : String
  etype : String
  properties : List (String × String) := []
  context : Option ContextData := none
deriving DecidableEq

/-- `n1.startswith("S_")` on node ids, via the underlying character list. -/
def strStartsWith (s p : String) : Bool :=
  go s.data p.data
where
  go : List Char → List Char → Bool
    | _, [] => true
    | [], _ :: _ => false
    | a :: as, b :: bs => a = b && go as bs

/-- Python `sorted` comparison on strings: lexicographic by code point. -/
def pyStrLe (a b : String) : Bool :=
  a == b || lt a.data b.data
where
  lt : List Char → List Char → Bool
    | [], [] => false
    | [], _ :: _ => true
    | _ :: _, [] => false
    | a :: as, b :: bs =>
      if a.val < b.val then true else if b.val < a.val then false else lt as bs

/-- Stable insertion into a sorted list: the new element (which comes later
in the original order) is placed after every element `b` with `le b a`. -/
def insertLe (le : α → α → Bool) (a : α) : List α → List α
  | [] => [a]
  | b :: l => if le b a then b :: insertLe le a l else a :: b :: l

/-- Stable sort (same output as Python's stable `list.sort` for the same
boolean `le`). -/
def stableSort (le : α → α → Bool) (l : List α) : List α :=
  l.foldl (fun acc a => insertLe le a acc) []

/-! ## Undirected adjacency for path search (`path_visualize.py`) -/

/-- The edge record stored in `edge_lookup`: either the original edge dict
or the synthesized reversed record, which carries the "context" key only
when the source context is truthy. -/
structure EdgeInfo where
  efrom : String
  eto : String
  etype : String
  properties : List (String × String)
  context : Option ContextData
  reversed : Bool
deriving DecidableEq

def origInfo (e : Edge) : EdgeInfo :=
  { efrom := e.efrom, eto := e.eto, etype := e.etype,
    properties := e.properties, context := e.context, reversed := false }

def reversedInfo (e : Edge) : EdgeInfo :=
  { efrom := e.eto, eto := e.efrom, etype := e.etype,
    properties := e.properties,
    context := if ctxTruthy e.context then e.context else none,
    reversed := true }

/-- `edge_lookup`: a dict keyed by `(from, to)`; later bindings shadow
earlier ones (Python dict overwrite). -/
def edgeLookup (edges : List Edge) : List ((String × String) × EdgeInfo) :=
  edges.flatMap fun e =>
    [((e.efrom, e.eto), origInfo e), ((e.eto, e.efrom), reversedInfo e)]

/-- Dict lookup: the last binding for the key wins. -/
def lookupE (tbl : List ((String × String) × EdgeInfo)) (k : String × String) :
    Option EdgeInfo :=
  (tbl.reverse.find? fun kv => kv.1 = k).map (·.2)

/-- `edge_lookup.get((n1, n2)) or edge_lookup.get((n2, n1))` (an edge dict is
always truthy, so Python's `or` is `Option.orElse`). -/
def lookup2 (tbl : List ((String × String) × EdgeInfo)) (n1 n2 : String) :
    Option EdgeInfo :=
  (lookupE tbl (n1, n2)).orElse fun _ => lookupE tbl (n2, n1)

/-- The undirected neighbor lists of `build_adjacency_undirected`:
`adj[from].append(to); adj[to].append(from)` for every edge, no type is
excluded.  A node is a key of the `defaultdict` iff its list is non-empty. -/
def adjU (edges : List Edge) : String → List String := fun node =>
  edges.flatMap fun e =>
    (if e.efrom = node then [e.eto] else []) ++
      (if e.eto = node then [e.efrom] else [])

/-- `build_adjacency_undirected(edges)` returning `(adj, edge_lookup)`. -/
def build_adjacency_undirected (edges : List Edge) :
    (String → List String) × List ((String × String) × EdgeInfo) :=
  (adjU edges, edgeLookup edges)

/-! ## S–S context validation (`validate_ss_contexts`) -/

/-- The inner collection loop of `validate_ss_contexts`: walk the
consecutive pairs; for a Symptom–Symptom pair whose looked-up edge is
`ASSOCIATED_WITH`, record its context-id set, failing (`none`) as soon as
one such pair has an empty set. -/
def ssCollect (tbl : List ((String × String) × EdgeInfo)) :
    List (String × String) → Option (List (Finset String))
  | [] => some []
  | (n1, n2) :: rest =>
    if strStartsWith n1 "S_" && strStartsWith n2 "S_" then
      match lookup2 tbl n1 n2 with
      | some ei =>
        if ei.etype = "ASSOCIATED_WITH" then
          let ids := get_context_ids ei.context
          if ids = ∅ then none
          else (ssCollect tbl rest).map fun l => ids :: l
        else ssCollect tbl rest
      | none => ssCollect tbl rest
    else ssCollect tbl rest

/-- The intersection loop of `validate_ss_contexts`, with its early exit on
an empty running intersection. -/
def interLoop (common : Finset String) : List (Finset String) → Bool × Finset String
  | [] => (true, common)
  | c :: rest =>
    let common' := common ∩ c
    if common' = ∅ then (false, ∅) else interLoop common' rest

/-- `validate_ss_contexts(path, edge_lookup)`. -/
def validate_ss_contexts (path : List String)
    (tbl : List ((String × String) × EdgeInfo)) : Bool × Finset String :=
  match ssCollect tbl (path.zip path.tail) with
  | none => (false, ∅)
  | some [] => (true, ∅)
  | some (h :: t) => interLoop h t

/-- Specification-side view used to state C1: the list of context-id sets of
the consecutive Symptom–Symptom `ASSOCIATED_WITH` edges along a path. -/
def ssContextSets (tbl : List ((String × String) × EdgeInfo))
    (path : List String) : List (Finset String) :=
  (path.zip path.tail).filterMap fun p =>
    if strStartsWith p.1 "S_" && strStartsWith p.2 "S_" then
      match lookup2 tbl p.1 p.2 with
      | some ei =>
        if ei.etype = "ASSOCIATED_WITH" then some (get_context_ids ei.context)
        else none
      | none => none
    else none

/-- Intersection of a non-empty family, `∅` for the empty one. -/
def interAll : List (Finset String) → Finset String
  | [] => ∅
  | h :: t => t.foldl (fun a b => a ∩ b) h

/-! ## Multi-path BFS (`find_all_paths_bfs`) -/

/-- A queue entry `(current_node, path_so_far, visited_set)`; the visited set
is kept as a duplicate-free list (only membership is ever used). -/
abbrev BfsEntry := String × List String × List String

/-- The accumulating state of the search: `found_paths`, `seen_paths` and
`first_hop_count` (an overwrite-on-update dict, modelled by prepending). -/
structure BfsSt where
  found : List (List String × Finset String)
  seen : List (List String)
  fhc : List (String × Nat)
deriving DecidableEq

/-- `first_hop_count.get(k, 0)`. -/
def lookupCount (m : List (String × Nat)) (k : String) : Nat :=
  match m.find? fun kv => kv.1 = k with
  | some kv => kv.2
  | none => 0

/-- `first_hop_count[k] = first_hop_count.get(k, 0) + 1`. -/
def bumpCount (m : List (String × Nat)) (k : String) : List (String × Nat) :=
  (k, lookupCount m k + 1) :: m

/-- `first_hop = new_path[1] if len(new_path) > 1 else None` followed by
`if first_hop: first_hop_count[first_hop] = ... + 1`. -/
def bumpFirstHop (st : BfsSt) (newPath : List String) : BfsSt :=
  match newPath.get? 1 with
  | some fh => if fh = "" then st else { st with fhc := bumpCount st.fhc fh }
  | none => st

theorem bumpFirstHop_found (st : BfsSt) (p : List String) :
    (bumpFirstHop st p).found = st.found := by
  rw [bumpFirstHop]
  cases p.get? 1 with
  | none => rfl
  | some fh => by_cases hfh : fh = "" <;> simp [hfh]

theorem bumpFirstHop_seen (st : BfsSt) (p : List String) :
    (bumpFirstHop st p).seen = st.seen := by
  rw [bumpFirstHop]
  cases p.get? 1 with
  | none => rfl
  | some fh => by_cases hfh : fh = "" <;> simp [hfh]

/-- The body of the `for neighbor in neighbors` loop: skip visited nodes;
on reaching `end`, dedup against `seen_paths`, validate the S–S context
constraint, count the first hop and record the path; otherwise push the
extended entry onto the queue. -/
def stepNeighbor (tbl : List ((String × String) × EdgeInfo)) (endId : String)
    (path vis : List String) (acc : BfsSt × List BfsEntry) (nb : String) :
    BfsSt × List BfsEntry :=
  if nb ∈ vis then acc
  else
    let newPath := path ++ [nb]
    let newVis := vis ++ [nb]
    if nb = endId then
      if newPath ∈ acc.1.seen then acc
      else
        let st1 := { acc.1 with seen := newPath :: acc.1.seen }
        match validate_ss_contexts newPath tbl with
        | (true, ctx) =>
          let st2 := bumpFirstHop st1 newPath
          ({ st2 with found := st2.found ++ [(newPath, ctx)] }, acc.2)
        | (false, _) => (st1, acc.2)
    else (acc.1, acc.2 ++ [(nb, newPath, newVis)])

/-- The BFS `while queue and len(found_paths) < max_paths * 3` loop.  `fuel`
only forces termination in Lean; the loop always stops by itself on an empty
queue, and every property proved below either holds for every fuel or uses
the generous bound `bfsFuel`. -/
def bfsLoop (adjUf : String → List String)
    (tbl : List ((String × String) × EdgeInfo)) (endId : String)
    (maxPaths maxDepth : Nat) : List BfsEntry → Nat → BfsSt → BfsSt
  | [], _, st => st
  | _ :: _, 0, st => st
  | (cur, path, vis) :: rest, fuel + 1, st =>
    if st.found.length ≥ maxPaths * 3 then st
    else if path.length - 1 ≥ maxDepth then
      bfsLoop adjUf tbl endId maxPaths maxDepth rest fuel st
    else
      let neighbors := stableSort pyStrLe (adjUf cur)
      let r := neighbors.foldl (stepNeighbor tbl endId path vis) (st, [])
      bfsLoop adjUf tbl endId maxPaths maxDepth (rest ++ r.2) fuel r.1

/-- The collection phase of `find_all_paths_bfs`, started from
`(start, [start], {start})`. -/
def bfsCollect (start endId : String) (adjUf : String → List String)
    (tbl : List ((String × String) × EdgeInfo))
    (maxPaths maxDepth fuel : Nat) : BfsSt :=
  bfsLoop adjUf tbl endId maxPaths maxDepth [(start, [start], [start])] fuel
    ⟨[], [], []⟩

/-- `p[1] if len(p) > 1 else ""` as used by the sort key. -/
def fhOf (p : List String) : String :=
  match p.get? 1 with
  | some x => x
  | none => ""

/-- The comparison induced by the sort key
`(len(p), first_hop_count.get(first_hop, 0))`. -/
def sortKeyLe (fhc : List (String × Nat)) (a b : List String × Finset String) :
    Bool :=
  if a.1.length = b.1.length then
    decide (lookupCount fhc (fhOf a.1) ≤ lookupCount fhc (fhOf b.1))
  else decide (a.1.length < b.1.length)

/-- `find_all_paths_bfs(start, end, adj, edge_lookup, max_paths, max_depth)`:
trivial path on `start == end`; otherwise collect, sort by
`(hop count, first-hop frequency)` and truncate to `max_paths`. -/
def find_all_paths_bfs (start endId : String) (adjUf : String → List String)
    (tbl : List ((String × String) × EdgeInfo))
    (maxPaths maxDepth fuel : Nat) : List (List String × Finset String) :=
  if start = endId then [([start], ∅)]
  else
    let st := bfsCollect start endId adjUf tbl maxPaths maxDepth fuel
    (stableSort (sortKeyLe st.fhc) st.found).take maxPaths

/-- A crude but always-sufficient fuel: the BFS enqueues each simple path at
most once, so the number of pops is far below this bound (a Lean-only
artifact; the Python loop needs none). -/
def bfsFuel (edges : List Edge) (maxDepth : Nat) : Nat :=
  (2 * edges.length + 2) ^ (maxDepth + 2)

/-- The `find_paths` operation of the spec: build the undirected adjacency
and the edge lookup from the edge catalog, then run the BFS. -/
def find_paths (edges : List Edge) (start endId : String)
    (maxPaths maxDepth : Nat) : List (List String × Finset String) :=
  find_all_paths_bfs start endId (adjU edges) (edgeLookup edges) maxPaths
    maxDepth (bfsFuel edges maxDepth)

/-! ## Directed adjacency for ego expansion (`visualize_node.py`) -/

/-- The excluded (negative-polarity) edge types. -/
def EXCLUDED_EDGE_TYPES_FOR_TRAVERSAL : List String :=
  ["RULES_OUT", "PERTINENT_NEGATIVE"]

/-- One entry of the directed adjacency: `{"to"/"from", "type", "dir",
"properties"}` plus the "context" key, set only for `ASSOCIATED_WITH` edges
with a truthy context.  `dir = true` means "out". -/
structure AdjEntry where
  dir : Bool
  other : String
  etype : String
  properties : List (String × String)
  context : Option ContextData
deriving DecidableEq

/-- `build_adjacency(edges)`: skips the excluded types entirely, then files
an "out" entry under the source and an "in" entry under the target. -/
def build_adjacency (edges : List Edge) : String → List AdjEntry := fun node =>
  edges.flatMap fun e =>
    if e.etype ∈ EXCLUDED_EDGE_TYPES_FOR_TRAVERSAL then []
    else
      let ctx :=
        if e.etype = "ASSOCIATED_WITH" ∧ ctxTruthy e.context then e.context
        else none
      (if e.efrom = node then [⟨true, e.eto, e.etype, e.properties, ctx⟩] else []) ++
        (if e.eto = node then [⟨false, e.efrom, e.etype, e.properties, ctx⟩] else [])

/-- `is_associated_with_valid(edge_neighbor, nodes, associated_with_contexts)`. -/
def is_associated_with_valid (n : AdjEntry) (nodes : List String)
    (ctxs : List (Finset String)) : Bool × Finset String :=
  let ctx_ids := get_context_ids n.context
  if ctx_ids = ∅ then (false, ∅)
  else if nodes.any fun x => decide (x ∈ ctx_ids) then (true, ctx_ids)
  else if ctxs.any fun c => !decide (ctx_ids ∩ c = ∅) then (true, ctx_ids)
  else (false, ctx_ids)

/-- An edge of the produced subgraph (the dicts appended to `edges`). -/
structure EdgeData where
  efrom : String
  eto : String
  etype : String
  properties : List (String × String)
  context : Option ContextData
deriving DecidableEq

/-- A parked `ASSOCIATED_WITH` edge awaiting validation (the "level" slot of
the Python dict only feeds `node_levels`, which the function never returns,
so it is dropped here). -/
structure Pending where
  pfrom : String
  pto : String
  neighborId : String
  info : AdjEntry
  key : String × String × String
  ctxIds : Finset String
deriving DecidableEq

/-- The mutable state of `expand_graph`: cumulative node list
(duplicate-free, standing for the Python set), edge list, dedup key set,
accepted `ASSOCIATED_WITH` context history, pending queue and the nodes
discovered in the current level. -/
structure ExpSt where
  nodes : List String
  edges : List EdgeData
  edgeSet : List (String × String × String)
  ctxs : List (Finset String)
  pending : List Pending
  nextLevel : List String
deriving DecidableEq

/-- A per-type queue of `by_type`: key, first entry, remaining entries (the
queue is non-empty by construction, mirroring `del by_type[etype]` as soon
as a queue empties). -/
abbrev TGroup := String × AdjEntry × List AdjEntry

def groupKeys (bt : List TGroup) : List String := bt.map (·.1)

def heads (bt : List TGroup) : List AdjEntry := bt.map fun g => g.2.1

def entriesOf (bt : List TGroup) : List AdjEntry :=
  bt.flatMap fun g => g.2.1 :: g.2.2

def btSize (bt : List TGroup) : Nat :=
  (bt.map fun g => 1 + g.2.2.length).sum

/-- `by_type[n["type"]].append(n)`: append to the existing queue, or create
a new key at the end (Python dicts iterate in first-insertion order). -/
def addToGroups (bt : List TGroup) (e : AdjEntry) : List TGroup :=
  match bt with
  | [] => [(e.etype, e, [])]
  | (k, h, t) :: rest =>
    if k = e.etype then (k, h, t ++ [e]) :: rest
    else (k, h, t) :: addToGroups rest e

def groupByType (l : List AdjEntry) : List TGroup := l.foldl addToGroups []

/-- `by_type[etype].pop(0)` followed by `del by_type[etype]` when emptied:
returns the popped entry and the updated group list (in place). -/
def popGroup : List TGroup → String → Option (AdjEntry × List TGroup)
  | [], _ => none
  | (k', h, t) :: rest, k =>
    if k' = k then
      some (h, match t with | [] => rest | h' :: t' => (k', h', t') :: rest)
    else (popGroup rest k).map fun r => (r.1, (k', h, t) :: r.2)

/-- The result of one (partial) sweep of the round-robin selection:
remaining per-type queues, `new_neighbors_count`, state, the trace of
entries examined so far (ghost data used only to state the round-robin
property), and whether the fan-out budget fired `break`. -/
structure RunRes where
  bt : List TGroup
  count : Nat
  st : ExpSt
  tr : List AdjEntry
  brk : Bool

/-- `(from, to)` of the recorded edge: original orientation for an "out"
entry, reversed for an "in" entry. -/
def entryEndpoints (nodeId : String) (n : AdjEntry) : String × String :=
  if n.dir then (nodeId, n.other) else (n.other, nodeId)

/-- The `(from, to, type)` dedup key of an entry. -/
def entryKey (nodeId : String) (n : AdjEntry) : String × String × String :=
  ((entryEndpoints nodeId n).1, (entryEndpoints nodeId n).2, n.etype)

/-- The edge dict appended to `edges`, with the "context" key only for
`ASSOCIATED_WITH` edges with a truthy context. -/
def mkEdgeData (nodeId : String) (n : AdjEntry) : EdgeData :=
  { efrom := (entryEndpoints nodeId n).1, eto := (entryEndpoints nodeId n).2,
    etype := n.etype, properties := n.properties,
    context :=
      if n.etype = "ASSOCIATED_WITH" ∧ ctxTruthy n.context then n.context
      else none }

/-- Recording an accepted entry: extend the dedup set and the edge list and,
when the neighbor is new, the node set and the next-level frontier.  Returns
the updated state and whether the neighbor was newly discovered (which is
what consumes fan-out budget). -/
def admitEntry (nodeId : String) (n : AdjEntry) (st1 : ExpSt) : ExpSt × Bool :=
  let isNew := n.other ∉ st1.nodes
  ({ st1 with
      edgeSet := st1.edgeSet ++ [entryKey nodeId n],
      edges := st1.edges ++ [mkEdgeData nodeId n],
      nodes := if isNew then st1.nodes ++ [n.other] else st1.nodes,
      nextLevel := if isNew then st1.nextLevel ++ [n.other] else st1.nextLevel },
    decide isNew)

/-- One `for etype in list(by_type.keys())` sweep of `expand_graph`'s
selection loop, processing the snapshot of keys in order: pop one entry of
each type; drop duplicates of `edge_set`; park invalid `ASSOCIATED_WITH`
edges as pending; otherwise record the edge, count the neighbor against the
budget only if it is new, and `break` once the budget is met. -/
def runPass (maxE : Nat) (nodeId : String) :
    List String → List TGroup → Nat → ExpSt → List AdjEntry → RunRes
  | [], bt, count, st, tr => ⟨bt, count, st, tr, false⟩
  | k :: ks, bt, count, st, tr =>
    match popGroup bt k with
    | none => runPass maxE nodeId ks bt count st tr
    | some (n, bt1) =>
      let tr1 := tr ++ [n]
      if entryKey nodeId n ∈ st.edgeSet then runPass maxE nodeId ks bt1 count st tr1
      else if n.etype = "ASSOCIATED_WITH" then
        match is_associated_with_valid n st.nodes st.ctxs with
        | (false, ctxIds) =>
          runPass maxE nodeId ks bt1 count
            { st with
                pending := st.pending ++
                  [⟨(entryEndpoints nodeId n).1, (entryEndpoints nodeId n).2,
                    n.other, n, entryKey nodeId n, ctxIds⟩] }
            tr1
        | (true, ctxIds) =>
          let st1 :=
            if ctxIds = ∅ then st else { st with ctxs := st.ctxs ++ [ctxIds] }
          let r := admitEntry nodeId n st1
          let count1 := if r.2 then count + 1 else count
          if count1 ≥ maxE then ⟨bt1, count1, r.1, tr1, true⟩
          else runPass maxE nodeId ks bt1 count1 r.1 tr1
      else
        let r := admitEntry nodeId n st
        let count1 := if r.2 then count + 1 else count
        if count1 ≥ maxE then ⟨bt1, count1, r.1, tr1, true⟩
        else runPass maxE nodeId ks bt1 count1 r.1 tr1

/-- The `while new_neighbors_count < max_edges and by_type` loop: repeated
sweeps over fresh key snapshots.  The fuel is a Lean artifact; `btSize bt`
strictly decreases at each sweep, so `btSize bt + 1` is always enough. -/
def runWhile (maxE : Nat) (nodeId : String) :
    Nat → List TGroup → Nat → ExpSt → List AdjEntry →
      List TGroup × Nat × ExpSt × List AdjEntry
  | 0, bt, count, st, tr => (bt, count, st, tr)
  | fuel + 1, bt, count, st, tr =>
    if count ≥ maxE ∨ bt = [] then (bt, count, st, tr)
    else
      let r := runPass maxE nodeId (groupKeys bt) bt count st tr
      if r.brk then (r.bt, r.count, r.st, r.tr)
      else runWhile maxE nodeId fuel r.bt r.count r.st r.tr

/-- Processing of a single frontier node inside a level: group its directed
adjacency by edge type and run the round-robin selection with a fresh
`new_neighbors_count`. -/
def processNode (adj : String → List AdjEntry) (maxE : Nat) (st : ExpSt)
    (nodeId : String) : ExpSt :=
  let bt := groupByType (adj nodeId)
  (runWhile maxE nodeId (btSize bt + 1) bt 0 st []).2.2.1

/-- The re-validation test of the after-level pending pass (`Rule 1` then
`Rule 2`). -/
def pendingValid (st : ExpSt) (p : Pending) : Bool :=
  (st.nodes.any fun x => decide (x ∈ p.ctxIds)) ||
    st.ctxs.any fun c => !decide (p.ctxIds ∩ c = ∅)

/-- One pending edge of the after-level pass: admit it (edge, context
history, possibly its neighbor node) when it became valid and is not a
duplicate; silently drop a valid duplicate; keep it pending otherwise. -/
def pendingStep (st : ExpSt) (p : Pending) : ExpSt :=
  if pendingValid st p then
    if p.key ∈ st.edgeSet then st
    else
      { st with
        edgeSet := st.edgeSet ++ [p.key],
        edges := st.edges ++
          [{ efrom := p.pfrom, eto := p.pto, etype := "ASSOCIATED_WITH",
             properties := p.info.properties,
             context :=
               if ctxTruthy p.info.context then p.info.context else none }],
        ctxs := st.ctxs ++ [p.ctxIds],
        nodes :=
          if p.neighborId ∉ st.nodes then st.nodes ++ [p.neighborId]
          else st.nodes,
        nextLevel :=
          if p.neighborId ∉ st.nodes then st.nextLevel ++ [p.neighborId]
          else st.nextLevel }
  else { st with pending := st.pending ++ [p] }

/-- The after-level pending pass: walk the parked edges in order against the
state as it grows, re-parking the still-invalid ones. -/
def pendingPass (st : ExpSt) : ExpSt :=
  st.pending.foldl pendingStep { st with pending := [] }

/-- The `for lvl in range(1, level + 1)` loop of `expand_graph`: process
every frontier node, run the pending pass, and continue from the newly
discovered nodes only. -/
def expandLevels (adj : String → List AdjEntry) (maxE : Nat) :
    Nat → List String → ExpSt → ExpSt
  | 0, _, st => st
  | l + 1, current, st =>
    let st1 := current.foldl (processNode adj maxE) { st with nextLevel := [] }
    let st2 := pendingPass st1
    expandLevels adj maxE l st2.nextLevel st2

/-- `find_internal_edges(nodes, all_edges, edge_set)`: every not-yet-recorded
edge (of any type) with both endpoints already discovered; returns the added
edges together with the grown dedup set. -/
def find_internal_edges (nodes : List String) (all_edges : List Edge)
    (edgeSet : List (String × String × String)) :
    List EdgeData × List (String × String × String) :=
  all_edges.foldl
    (fun acc e =>
      if e.efrom ∈ nodes ∧ e.eto ∈ nodes then
        let key := (e.efrom, e.eto, e.etype)
        if key ∈ acc.2 then acc
        else
          (acc.1 ++ [⟨e.efrom, e.eto, e.etype, e.properties, none⟩],
            acc.2 ++ [key])
      else acc)
    ([], edgeSet)

/-- `expand_graph(center_id, adj, all_edges, level, max_edges, cross)`.
(`node_levels` is internal bookkeeping the function never returns and is
not modelled.) -/
def expand_graph (center_id : String) (adj : String → List AdjEntry)
    (all_edges : List Edge) (level maxE : Nat) (cross : Bool) :
    List String × List EdgeData :=
  let st0 : ExpSt := ⟨[center_id], [], [], [], [], []⟩
  let st := expandLevels adj maxE level [center_id] st0
  let finalEdges :=
    if cross then st.edges ++ (find_internal_edges st.nodes all_edges st.edgeSet).1
    else st.edges
  (st.nodes, finalEdges)

/-- The `expand` operation of the spec: build the directed adjacency from
the edge catalog, then expand around the center. -/
def expand (edges : List Edge) (center_id : String) (level maxE : Nat)
    (cross : Bool) : List String × List EdgeData :=
  expand_graph center_id (build_adjacency edges) edges level maxE cross

/-- Advancing all per-type queues by one entry (dropping the emptied ones):
one round of the round-robin. -/
def advance : List TGroup → List TGroup
  | [] => []
  | (_, _, []) :: rest => advance rest
  | (k, _, h :: t) :: rest => (k, h, t) :: advance rest

theorem advance_size (bt : List TGroup) :
    btSize (advance bt) + bt.length = btSize bt := by
  induction bt with
  | nil => rfl
  | cons g rest ih =>
    obtain ⟨k, h, t⟩ := g
    cases t with
    | nil =>
      simp only [advance, btSize, List.map_cons, List.sum_cons,
        List.length_cons, List.length_nil] at ih ⊢
      omega
    | cons h' t' =>
      simp only [advance, btSize, List.map_cons, List.sum_cons,
        List.length_cons, List.length_nil] at ih ⊢
      omega

/-- The full round-robin linearisation of the per-type queues: one sweep of
heads, then recurse on the advanced queues. -/
def roundRobin (bt : List TGroup) : List AdjEntry :=
  if hbt : bt = [] then []
  else heads bt ++ roundRobin (advance bt)
termination_by btSize bt
decreasing_by
  have h1 := advance_size bt
  have h2 : 1 ≤ bt.length := by
    cases bt with
    | nil => exact absurd rfl hbt
    | cons g rest => simp
  omega

/-! ## Raw edge records and the `KeyError` behaviour of the builders -/

/-- An edge record as read from the feed, possibly missing one of the
required "from"/"to"/"type" fields. -/
structure RawEdge where
  efrom : Option String
  eto : Option String
  etype : Option String
  properties : List (String × String) := []
  context : Option ContextData := none
deriving DecidableEq

/-- `edge["field"]` on a required field: raises `KeyError` when absent. -/
def reqField : Option String → Except Unit String
  | some s => .ok s
  | none => .error ()

/-- The field accesses performed by both builders on one record, in source
order ("from", then "to", then "type"; "properties" and "context" use
`.get` and cannot fail). -/
def rawToEdge (r : RawEdge) : Except Unit Edge := do
  let f ← reqField r.efrom
  let t ← reqField r.eto
  let ty ← reqField r.etype
  return { efrom := f, eto := t, etype := ty, properties := r.properties,
           context := r.context }

/-- `build_adjacency_undirected` on raw records: the loop body dereferences
the required fields of every record, so a missing field aborts the whole
construction with the `KeyError`. -/
def build_adjacency_undirected_raw (rs : List RawEdge) :
    Except Unit ((String → List String) × List ((String × String) × EdgeInfo)) :=
  (rs.mapM rawToEdge).map build_adjacency_undirected

/-- `build_adjacency` (the directed builder) on raw records. -/
def build_adjacency_raw (rs : List RawEdge) :
    Except Unit (String → List AdjEntry) :=
  (rs.mapM rawToEdge).map build_adjacency

/-- A record missing a required field. -/
def missingField (r : RawEdge) : Prop :=
  r.efrom = none ∨ r.eto = none ∨ r.etype = none

/-- The edge a well-formed raw record denotes. -/
def stripRaw (r : RawEdge) : Edge :=
  { efrom := r.efrom.getD "", eto := r.eto.getD "", etype := r.etype.getD "",
    properties := r.properties, context := r.context }

/-! ## Derived views and small concrete catalogs used in the statements -/

/-- The cumulative state `expand_graph` has built when its level loop ends
(`expand` then only projects and optionally appends the closure edges). -/
def expandSt (edges : List Edge) (center_id : String) (lvl maxE : Nat) :
    ExpSt :=
  expandLevels (build_adjacency edges) maxE lvl [center_id]
    ⟨[center_id], [], [], [], [], []⟩

/-- One Symptom–Symptom association anchored at the context id `D_X`. -/
def awEdges : List Edge :=
  [{ efrom := "S_A", eto := "S_B", etype := "ASSOCIATED_WITH",
     context := some (.many [.obj (some "D_X") (some "dx")]) }]

/-- One context-less Symptom–Mechanism association. -/
def ctxlessAW : List Edge :=
  [{ efrom := "S_A", eto := "M_B", etype := "ASSOCIATED_WITH" }]

/-- One `RULES_OUT` edge. -/
def rulesOutEdges : List Edge :=
  [{ efrom := "S_A", eto := "D_X", etype := "RULES_OUT" }]

/-- A diagnosis with one symptom plus an association anchored back at the
diagnosis. -/
def egoEdges : List Edge :=
  [{ efrom := "D_X", eto := "S_A", etype := "HAS_SYMPTOM" },
   { efrom := "S_A", eto := "S_B", etype := "ASSOCIATED_WITH",
     context := some (.many [.obj (some "D_X") none]) }]

/-- A symptom edge together with a `RULES_OUT` back-edge. -/
def mixedEdges : List Edge :=
  [{ efrom := "D_X", eto := "S_A", etype := "HAS_SYMPTOM" },
   { efrom := "S_A", eto := "D_X", etype := "RULES_OUT" }]

/-- The association edge the expansion of `egoEdges` around `D_X` records. -/
def awEgoEdge : EdgeData :=
  { efrom := "S_A", eto := "S_B", etype := "ASSOCIATED_WITH",
    properties := [],
    context := some (.many [.obj (some "D_X") none]) }

/-- The symptom edge the expansion of `mixedEdges` around `D_X` records. -/
def hsEdge : EdgeData :=
  { efrom := "D_X", eto := "S_A", etype := "HAS_SYMPTOM",
    properties := [], context := none }

/-- The closure edge the closure pass over `mixedEdges` adds. -/
def roClosureEdge : EdgeData :=
  { efrom := "S_A", eto := "D_X", etype := "RULES_OUT",
    properties := [], context := none }

/-- One well-formed raw record followed by one missing its "from" field. -/
def rawRecords : List RawEdge :=
  [{ efrom := some "D_X", eto := some "S_A", etype := some "HAS_SYMPTOM" },
   { efrom := none, eto := some "S_B", etype := some "HAS_SYMPTOM" }]

/-- A fully well-formed raw collection. -/
def goodRaw : List RawEdge :=
  [{ efrom := some "D_X", eto := some "S_A", etype := some "HAS_SYMPTOM" }]

/-! ## Lemmas about the stable sort -/

theorem mem_insertLe (le : α → α → Bool) (a x : α) :
    ∀ l : List α, x ∈ insertLe le a l ↔ x = a ∨ x ∈ l := by
  intro l
  induction l with
  | nil => simp [insertLe]
  | cons b l ih =>
    by_cases h : le b a = true <;> simp [insertLe, h, ih] <;> tauto

theorem pairwise_insertLe (le : α → α → Bool)
    (htot : ∀ a b, le a b || le b a)
    (htrans : ∀ a b c, le a b = true → le b c = true → le a c = true)
    (a : α) : ∀ l : List α, l.Pairwise (fun x y => le x y = true) →
      (insertLe le a l).Pairwise (fun x y => le x y = true) := by
  intro l
  induction l with
  | nil => simp [insertLe]
  | cons b l ih =>
    intro hl
    rw [List.pairwise_cons] at hl
    by_cases h : le b a = true
    · simp only [insertLe, h, if_true]
      rw [List.pairwise_cons]
      refine ⟨fun x hx => ?_, ih hl.2⟩
      rcases (mem_insertLe le a x l).mp hx with rfl | hx
      · exact h
      · exact hl.1 x hx
    · have hstep : insertLe le a (b :: l) = a :: b :: l := by
        simp [insertLe, h]
      rw [hstep]
      have hab : le a b = true := by
        have := htot b a
        simp [h] at this
        exact this
      rw [List.pairwise_cons]
      refine ⟨fun x hx => ?_, (List.pairwise_cons).mpr hl⟩
      rcases List.mem_cons.mp hx with rfl | hx
      · exact hab
      · exact htrans a b x hab (hl.1 x hx)

theorem pairwise_foldl_insertLe (le : α → α → Bool)
    (htot : ∀ a b, le a b || le b a)
    (htrans : ∀ a b c, le a b = true → le b c = true → le a c = true) :
    ∀ (l : List α) (acc : List α),
      acc.Pairwise (fun x y => le x y = true) →
      (l.foldl (fun acc a => insertLe le a acc) acc).Pairwise
        (fun x y => le x y = true) := by
  intro l
  induction l with
  | nil => intro acc h; exact h
  | cons a l ih =>
    intro acc h
    exact ih _ (pairwise_insertLe le htot htrans a acc h)

theorem pairwise_stableSort (le : α → α → Bool)
    (htot : ∀ a b, le a b || le b a)
    (htrans : ∀ a b c, le a b = true → le b c = true → le a c = true)
    (l : List α) :
    (stableSort le l).Pairwise (fun x y => le x y = true) :=
  pairwise_foldl_insertLe le htot htrans l [] (by simp)

theorem mem_foldl_insertLe (le : α → α → Bool) (x : α) :
    ∀ (l acc : List α),
      (x ∈ l.foldl (fun acc a => insertLe le a acc) acc ↔ x ∈ acc ∨ x ∈ l) := by
  intro l
  induction l with
  | nil => simp
  | cons a l ih =>
    intro acc
    rw [List.foldl_cons, ih, mem_insertLe]
    simp
    tauto

theorem mem_stableSort (le : α → α → Bool) (x : α) (l : List α) :
    x ∈ stableSort le l ↔ x ∈ l := by
  rw [stableSort, mem_foldl_insertLe]
  simp

/-! ## Lemmas about `validate_ss_contexts` -/

/-- The context-id set a consecutive pair contributes, if it is a
Symptom–Symptom `ASSOCIATED_WITH` pair. -/
def ssPairCtx (tbl : List ((String × String) × EdgeInfo)) (p : String × String) :
    Option (Finset String) :=
  if strStartsWith p.1 "S_" && strStartsWith p.2 "S_" then
    match lookup2 tbl p.1 p.2 with
    | some ei =>
      if ei.etype = "ASSOCIATED_WITH" then some (get_context_ids ei.context)
      else none
    | none => none
  else none

theorem ssContextSets_eq (tbl : List ((String × String) × EdgeInfo))
    (path : List String) :
    ssContextSets tbl path = (path.zip path.tail).filterMap (ssPairCtx tbl) := by
  rfl

theorem ssCollect_some (tbl : List ((String × String) × EdgeInfo)) :
    ∀ (ps : List (String × String)) (l : List (Finset String)),
      ssCollect tbl ps = some l →
      l = ps.filterMap (ssPairCtx tbl) ∧ ∀ s ∈ l, s ≠ ∅ := by
  intro ps
  induction ps with
  | nil =>
    intro l h
    simp only [ssCollect, Option.some.injEq] at h
    subst h
    simp
  | cons p rest ih =>
    intro l h
    obtain ⟨n1, n2⟩ := p
    by_cases hss : (strStartsWith n1 "S_" && strStartsWith n2 "S_") = true
    · simp only [ssCollect, hss, if_true] at h
      cases hlk : lookup2 tbl n1 n2 with
      | none =>
        simp only [hlk] at h
        obtain ⟨h1, h2⟩ := ih l h
        refine ⟨?_, h2⟩
        simp [List.filterMap_cons, ssPairCtx, hss, hlk, h1]
      | some ei =>
        simp only [hlk] at h
        by_cases haw : ei.etype = "ASSOCIATED_WITH"
        · simp only [haw, if_true] at h
          by_cases hids : get_context_ids ei.context = ∅
          · simp [hids] at h
          · simp only [hids, if_false] at h
            cases hr : ssCollect tbl rest with
            | none => rw [hr] at h; exact Option.noConfusion h
            | some l' =>
            rw [hr] at h
            simp only [Option.map_some', Option.some.injEq] at h
            subst h
            obtain ⟨h1, h2⟩ := ih l' hr
            constructor
            · simp [List.filterMap_cons, ssPairCtx, hss, hlk, haw, h1]
            · intro s hs
              rcases List.mem_cons.mp hs with rfl | hs
              · exact hids
              · exact h2 s hs
        · simp only [haw, if_false] at h
          obtain ⟨h1, h2⟩ := ih l h
          refine ⟨?_, h2⟩
          simp [List.filterMap_cons, ssPairCtx, hss, hlk, haw, h1]
    · simp only [ssCollect, hss, if_false] at h
      obtain ⟨h1, h2⟩ := ih l h
      refine ⟨?_, h2⟩
      simp [List.filterMap_cons, ssPairCtx, hss, h1]

theorem interLoop_true :
    ∀ (t : List (Finset String)) (acc c : Finset String),
      interLoop acc t = (true, c) →
      c = t.foldl (fun a b => a ∩ b) acc ∧ (acc ≠ ∅ → c ≠ ∅) := by
  intro t
  induction t with
  | nil =>
    intro acc c h
    simp only [interLoop, Prod.mk.injEq] at h
    obtain ⟨-, rfl⟩ := h
    exact ⟨rfl, fun h => h⟩
  | cons c' rest ih =>
    intro acc c h
    simp only [interLoop] at h
    by_cases he : acc ∩ c' = ∅
    · simp [he] at h
    · simp only [he, if_false] at h
      obtain ⟨h1, h2⟩ := ih (acc ∩ c') c h
      exact ⟨by simpa using h1, fun _ => h2 he⟩

theorem validate_true (path : List String)
    (tbl : List ((String × String) × EdgeInfo)) (c : Finset String)
    (h : validate_ss_contexts path tbl = (true, c)) :
    (ssContextSets tbl path = [] ∧ c = ∅) ∨
      (ssContextSets tbl path ≠ [] ∧ c = interAll (ssContextSets tbl path) ∧
        c ≠ ∅) := by
  rw [validate_ss_contexts] at h
  cases hcol : ssCollect tbl (path.zip path.tail) with
  | none => simp [hcol] at h
  | some l =>
    obtain ⟨hl, hne⟩ := ssCollect_some tbl _ l hcol
    rw [ssContextSets_eq, ← hl]
    cases l with
    | nil =>
      left
      simp only [hcol] at h
      simp only [Prod.mk.injEq] at h
      exact ⟨rfl, h.2.symm⟩
    | cons hd tl =>
      right
      simp only [hcol] at h
      obtain ⟨h1, h2⟩ := interLoop_true tl hd c h
      exact ⟨by simp, by simpa [interAll] using h1,
        h2 (hne hd (List.mem_cons_self hd tl))⟩

theorem ssCollect_pair_ne_empty (tbl : List ((String × String) × EdgeInfo)) :
    ∀ (ps : List (String × String)) (l : List (Finset String)),
      ssCollect tbl ps = some l →
      ∀ n1 n2, (n1, n2) ∈ ps → strStartsWith n1 "S_" = true →
        strStartsWith n2 "S_" = true → ∀ ei, lookup2 tbl n1 n2 = some ei →
        ei.etype = "ASSOCIATED_WITH" → get_context_ids ei.context ≠ ∅ := by
  intro ps
  induction ps with
  | nil => intro l _ n1 n2 h; simp at h
  | cons p rest ih =>
    intro l h n1 n2 hmem h1 h2 ei hlk haw
    obtain ⟨m1, m2⟩ := p
    have hrest : ∃ l', ssCollect tbl rest = some l' := by
      by_cases hss : (strStartsWith m1 "S_" && strStartsWith m2 "S_") = true
      · simp only [ssCollect, hss, if_true] at h
        cases hlk' : lookup2 tbl m1 m2 with
        | none => simp only [hlk'] at h; exact ⟨l, h⟩
        | some ei' =>
          simp only [hlk'] at h
          by_cases haw' : ei'.etype = "ASSOCIATED_WITH"
          · simp only [haw', if_true] at h
            by_cases hids : get_context_ids ei'.context = ∅
            · simp [hids] at h
            · simp only [hids, if_false] at h
              cases hr : ssCollect tbl rest with
              | none => rw [hr] at h; exact Option.noConfusion h
              | some l' => exact ⟨l', rfl⟩
          · simp only [haw', if_false] at h; exact ⟨l, h⟩
      · simp only [ssCollect, hss, if_false] at h; exact ⟨l, h⟩
    rcases List.mem_cons.mp hmem with heq | hmem'
    · injection heq with e1 e2
      subst e1; subst e2
      have hss : (strStartsWith n1 "S_" && strStartsWith n2 "S_") = true := by
        simp [h1, h2]
      simp only [ssCollect, hss, if_true, hlk, haw, if_true] at h
      intro hids
      simp [hids] at h
    · obtain ⟨l', hl'⟩ := hrest
      exact ih l' hl' n1 n2 hmem' h1 h2 ei hlk haw

/-! ## Invariants of the BFS loop -/

/-- A queue entry is well-formed: its partial path has no repeats and its
visited set holds exactly the path's nodes. -/
def QEntryOK (ent : BfsEntry) : Prop :=
  ent.2.1.Nodup ∧ ∀ x, x ∈ ent.2.2 ↔ x ∈ ent.2.1

/-- A recorded result is well-formed: it passed the S–S validation with the
reported context, respects the depth bound and repeats no node. -/
def FoundOK (tbl : List ((String × String) × EdgeInfo)) (maxDepth : Nat)
    (pc : List String × Finset String) : Prop :=
  validate_ss_contexts pc.1 tbl = (true, pc.2) ∧ pc.1.length - 1 ≤ maxDepth ∧
    pc.1.Nodup

theorem stepNeighbor_inv (tbl : List ((String × String) × EdgeInfo))
    (endId : String) (maxDepth : Nat) (path vis : List String)
    (hnd : path.Nodup) (hv : ∀ x, x ∈ vis ↔ x ∈ path)
    (hdep : path.length - 1 < maxDepth) :
    ∀ (nbs : List String) (acc : BfsSt × List BfsEntry),
      (∀ pc ∈ acc.1.found, FoundOK tbl maxDepth pc) →
      (∀ ent ∈ acc.2, QEntryOK ent) →
      (∀ pc ∈ (nbs.foldl (stepNeighbor tbl endId path vis) acc).1.found,
          FoundOK tbl maxDepth pc) ∧
        ∀ ent ∈ (nbs.foldl (stepNeighbor tbl endId path vis) acc).2,
          QEntryOK ent := by
  intro nbs
  induction nbs with
  | nil => intro acc h1 h2; exact ⟨h1, h2⟩
  | cons nb nbs ih =>
    intro acc h1 h2
    rw [List.foldl_cons]
    apply ih
    · -- found entries of one step
      intro pc hpc
      by_cases hvis : nb ∈ vis
      · simp only [stepNeighbor, hvis, if_pos, if_true] at hpc
        exact h1 pc hpc
      · simp only [stepNeighbor, hvis, if_false] at hpc
        by_cases hend : nb = endId
        · simp only [hend, if_true] at hpc
          by_cases hseen : path ++ [endId] ∈ acc.1.seen
          · simp only [hseen, if_true] at hpc
            exact h1 pc hpc
          · simp only [hseen, if_false] at hpc
            cases hval : validate_ss_contexts (path ++ [endId]) tbl with
            | mk ok ctx =>
              have hlen : (path ++ [endId]).length - 1 ≤ maxDepth := by
                simp only [List.length_append, List.length_cons,
                  List.length_nil]
                omega
              have hnodup : (path ++ [endId]).Nodup := by
                have hnmem : endId ∉ path := by
                  rw [← hend]
                  intro hc
                  exact hvis ((hv nb).mpr hc)
                rw [← hend] at hnmem ⊢
                simp [List.nodup_append, hnd, hnmem]
              cases ok with
              | true =>
                rw [hval] at hpc
                simp only [bumpFirstHop_found] at hpc
                rcases List.mem_append.mp hpc with hpc | hpc
                · exact h1 pc hpc
                · rw [List.mem_singleton] at hpc
                  subst hpc
                  exact ⟨hval, hlen, hnodup⟩
              | false =>
                rw [hval] at hpc
                simp only at hpc
                exact h1 pc hpc
        · simp only [hend, if_false] at hpc
          exact h1 pc hpc
    · -- queue entries of one step
      intro ent hent
      by_cases hvis : nb ∈ vis
      · simp only [stepNeighbor, hvis, if_pos, if_true] at hent
        exact h2 ent hent
      · simp only [stepNeighbor, hvis, if_false] at hent
        by_cases hend : nb = endId
        · simp only [hend, if_true] at hent
          by_cases hseen : path ++ [endId] ∈ acc.1.seen
          · simp only [hseen, if_true] at hent
            exact h2 ent hent
          · simp only [hseen, if_false] at hent
            cases hval : validate_ss_contexts (path ++ [endId]) tbl with
            | mk ok ctx =>
              cases ok with
              | true => rw [hval] at hent; simp only at hent; exact h2 ent hent
              | false => rw [hval] at hent; simp only at hent; exact h2 ent hent
        · simp only [hend, if_false] at hent
          rcases List.mem_append.mp hent with hent | hent
          · exact h2 ent hent
          · rw [List.mem_singleton] at hent
            subst hent
            have hnmem : nb ∉ path := fun hc => hvis ((hv nb).mpr hc)
            constructor
            · simp [List.nodup_append, hnd, hnmem]
            · intro x
              simp only [List.mem_append, List.mem_singleton, hv x]

theorem bfsLoop_inv (adjUf : String → List String)
    (tbl : List ((String × String) × EdgeInfo)) (endId : String)
    (maxPaths maxDepth : Nat) :
    ∀ (fuel : Nat) (q : List BfsEntry) (st : BfsSt),
      (∀ ent ∈ q, QEntryOK ent) →
      (∀ pc ∈ st.found, FoundOK tbl maxDepth pc) →
      ∀ pc ∈ (bfsLoop adjUf tbl endId maxPaths maxDepth q fuel st).found,
        FoundOK tbl maxDepth pc := by
  intro fuel
  induction fuel with
  | zero =>
    intro q st hq hst
    cases q with
    | nil => exact hst
    | cons e rest => exact hst
  | succ fuel ih =>
    intro q st hq hst
    cases q with
    | nil => exact hst
    | cons e rest =>
      obtain ⟨cur, path, vis⟩ := e
      rw [bfsLoop]
      by_cases hcap : st.found.length ≥ maxPaths * 3
      · simp only [hcap, if_true]
        exact hst
      · simp only [hcap, if_false]
        by_cases hdep : path.length - 1 ≥ maxDepth
        · simp only [hdep, if_true]
          exact ih rest st (fun ent hent => hq ent (List.mem_cons_of_mem _ hent))
            hst
        · simp only [hdep, if_false]
          have hqe : QEntryOK (cur, path, vis) := hq _ (List.mem_cons_self _ _)
          obtain ⟨hr1, hr2⟩ :=
            stepNeighbor_inv tbl endId maxDepth path vis hqe.1 hqe.2
              (by omega) (stableSort pyStrLe (adjUf cur)) (st, [])
              hst (by intro ent h; simp at h)
          apply ih _ _ _ hr1
          intro ent hent
          rcases List.mem_append.mp hent with hent | hent
          · exact hq ent (List.mem_cons_of_mem _ hent)
          · exact hr2 ent hent

/-- Bridge: every result of a non-trivial `find_all_paths_bfs` query comes
from the collection phase and is well-formed. -/
theorem foundOK_of_mem (start endId : String) (adjUf : String → List String)
    (tbl : List ((String × String) × EdgeInfo)) (maxPaths maxDepth fuel : Nat)
    (p : List String) (c : Finset String) (hne : start ≠ endId)
    (h : (p, c) ∈ find_all_paths_bfs start endId adjUf tbl maxPaths maxDepth fuel) :
    FoundOK tbl maxDepth (p, c) := by
  rw [find_all_paths_bfs, if_neg hne] at h
  have h1 := List.take_subset maxPaths _ h
  rw [mem_stableSort] at h1
  refine bfsLoop_inv adjUf tbl endId maxPaths maxDepth fuel _ _ ?_ ?_ (p, c) h1
  · intro ent hent
    rw [List.mem_singleton] at hent
    subst hent
    exact ⟨List.nodup_singleton start, fun x => Iff.rfl⟩
  · intro pc hpc
    simp at hpc

/-- From a passed validation, every consecutive Symptom–Symptom pair whose
looked-up edge is `ASSOCIATED_WITH` has a non-empty context set. -/
theorem validate_pair (path : List String)
    (tbl : List ((String × String) × EdgeInfo)) (c : Finset String)
    (h : validate_ss_contexts path tbl = (true, c)) :
    ∀ n1 n2, (n1, n2) ∈ path.zip path.tail → strStartsWith n1 "S_" = true →
      strStartsWith n2 "S_" = true → ∀ ei, lookup2 tbl n1 n2 = some ei →
      ei.etype = "ASSOCIATED_WITH" → get_context_ids ei.context ≠ ∅ := by
  rw [validate_ss_contexts] at h
  cases hcol : ssCollect tbl (path.zip path.tail) with
  | none => simp [hcol] at h
  | some l => exact ssCollect_pair_ne_empty tbl _ l hcol

/-! ## Lemmas about the result ordering -/

theorem sortKeyLe_total (fhc : List (String × Nat)) :
    ∀ a b, sortKeyLe fhc a b || sortKeyLe fhc b a := by
  intro a b
  by_cases h : a.1.length = b.1.length
  · simp only [sortKeyLe, h, if_true, if_pos h.symm, Bool.or_eq_true,
      decide_eq_true_eq]
    omega
  · have h' : ¬b.1.length = a.1.length := fun hh => h hh.symm
    simp only [sortKeyLe, h, h', if_false, Bool.or_eq_true, decide_eq_true_eq]
    omega

theorem sortKeyLe_trans (fhc : List (String × Nat)) :
    ∀ a b c, sortKeyLe fhc a b = true → sortKeyLe fhc b c = true →
      sortKeyLe fhc a c = true := by
  intro a b c hab hbc
  rw [sortKeyLe] at hab hbc ⊢
  by_cases h1 : a.1.length = b.1.length
  · rw [if_pos h1] at hab
    by_cases h2 : b.1.length = c.1.length
    · rw [if_pos h2] at hbc
      rw [if_pos (h1.trans h2)]
      simp only [decide_eq_true_eq] at hab hbc ⊢
      omega
    · rw [if_neg h2] at hbc
      simp only [decide_eq_true_eq] at hbc
      rw [if_neg (by omega : ¬a.1.length = c.1.length)]
      simp only [decide_eq_true_eq]
      omega
  · rw [if_neg h1] at hab
    simp only [decide_eq_true_eq] at hab
    by_cases h2 : b.1.length = c.1.length
    · rw [if_neg (by omega : ¬a.1.length = c.1.length)]
      simp only [decide_eq_true_eq]
      omega
    · rw [if_neg h2] at hbc
      simp only [decide_eq_true_eq] at hbc
      rw [if_neg (by omega : ¬a.1.length = c.1.length)]
      simp only [decide_eq_true_eq]
      omega

theorem sortKeyLe_length (fhc : List (String × Nat))
    (a b : List String × Finset String) (h : sortKeyLe fhc a b = true) :
    a.1.length ≤ b.1.length := by
  by_cases h1 : a.1.length = b.1.length
  · omega
  · simp only [sortKeyLe, h1, if_false, decide_eq_true_eq] at h
    omega

/-! ## Lemmas about absent node ids -/

theorem adjU_absent (edges : List Edge) (x : String)
    (h : ∀ e ∈ edges, e.efrom ≠ x ∧ e.eto ≠ x) : adjU edges x = [] := by
  induction edges with
  | nil => rfl
  | cons e rest ih =>
    have he := h e (List.mem_cons_self e rest)
    have hr := ih fun e' he' => h e' (List.mem_cons_of_mem _ he')
    simp only [adjU, List.flatMap_cons] at hr ⊢
    simp [he.1, he.2, hr]

theorem adjU_target_absent (edges : List Edge) (x : String)
    (h : ∀ e ∈ edges, e.efrom ≠ x ∧ e.eto ≠ x) :
    ∀ cur, x ∉ adjU edges cur := by
  intro cur hx
  simp only [adjU, List.mem_flatMap] at hx
  obtain ⟨e, he, hmem⟩ := hx
  have := h e he
  rcases List.mem_append.mp hmem with hm | hm
  · split at hm
    · rw [List.mem_singleton] at hm
      exact this.2 hm.symm
    · simp at hm
  · split at hm
    · rw [List.mem_singleton] at hm
      exact this.1 hm.symm
    · simp at hm

/-- If no neighbor list ever contains the target, the collection phase never
records a path. -/
theorem stepNeighbor_found_stable (tbl : List ((String × String) × EdgeInfo))
    (endId : String) (path vis : List String) :
    ∀ (nbs : List String) (acc : BfsSt × List BfsEntry),
      (∀ nb ∈ nbs, nb ≠ endId) →
      (nbs.foldl (stepNeighbor tbl endId path vis) acc).1 = acc.1 := by
  intro nbs
  induction nbs with
  | nil => intro acc _; rfl
  | cons nb nbs ih =>
    intro acc hne
    rw [List.foldl_cons]
    have h1 : (stepNeighbor tbl endId path vis acc nb).1 = acc.1 := by
      have hnb : ¬nb = endId := hne nb (List.mem_cons_self _ _)
      by_cases hvis : nb ∈ vis
      · simp [stepNeighbor, hvis]
      · simp [stepNeighbor, hvis, hnb]
    rw [← h1]
    exact ih _ fun nb' hnb' => hne nb' (List.mem_cons_of_mem _ hnb')

theorem bfsLoop_found_stable (adjUf : String → List String)
    (tbl : List ((String × String) × EdgeInfo)) (endId : String)
    (maxPaths maxDepth : Nat) (habs : ∀ cur, endId ∉ adjUf cur) :
    ∀ (fuel : Nat) (q : List BfsEntry) (st : BfsSt),
      (bfsLoop adjUf tbl endId maxPaths maxDepth q fuel st).found = st.found := by
  intro fuel
  induction fuel with
  | zero =>
    intro q st
    cases q with
    | nil => rfl
    | cons e rest => rfl
  | succ fuel ih =>
    intro q st
    cases q with
    | nil => rfl
    | cons e rest =>
      obtain ⟨cur, path, vis⟩ := e
      rw [bfsLoop]
      by_cases hcap : st.found.length ≥ maxPaths * 3
      · simp only [hcap, if_true]
      · simp only [hcap, if_false]
        by_cases hdep : path.length - 1 ≥ maxDepth
        · simp only [hdep, if_true]
          exact ih rest st
        · simp only [hdep, if_false]
          have hst :
              ((stableSort pyStrLe (adjUf cur)).foldl
                  (stepNeighbor tbl endId path vis) (st, [])).1 = st := by
            apply stepNeighbor_found_stable
            intro nb hnb heq
            subst heq
            exact habs cur ((mem_stableSort pyStrLe nb _).mp hnb)
          rw [ih, hst]

/-- With an absent start and a different target, the whole search returns
the empty list, for any fuel. -/
theorem find_all_paths_bfs_absent_start (start endId : String)
    (adjUf : String → List String) (tbl : List ((String × String) × EdgeInfo))
    (maxPaths maxDepth fuel : Nat) (hne : start ≠ endId)
    (hadj : adjUf start = []) :
    find_all_paths_bfs start endId adjUf tbl maxPaths maxDepth fuel = [] := by
  rw [find_all_paths_bfs, if_neg hne]
  have hfound :
      (bfsCollect start endId adjUf tbl maxPaths maxDepth fuel).found = [] := by
    rw [bfsCollect]
    cases fuel with
    | zero => rfl
    | succ fuel =>
      rw [bfsLoop]
      by_cases hcap : ([] : List (List String × Finset String)).length ≥ maxPaths * 3
      · simp only [hcap, if_true]
      · simp only [hcap, if_false]
        by_cases hdep : ([start] : List String).length - 1 ≥ maxDepth
        · simp only [hdep, if_true]
          cases fuel <;> rfl
        · simp only [hdep, if_false]
          rw [hadj]
          show (bfsLoop adjUf tbl endId maxPaths maxDepth ([] ++ []) fuel _).found = []
          cases fuel <;> rfl
  simp [hfound, stableSort]

theorem build_adjacency_absent (edges : List Edge) (x : String)
    (h : ∀ e ∈ edges, e.efrom ≠ x ∧ e.eto ≠ x) : build_adjacency edges x = [] := by
  induction edges with
  | nil => rfl
  | cons e rest ih =>
    have he := h e (List.mem_cons_self e rest)
    have hr := ih fun e' he' => h e' (List.mem_cons_of_mem _ he')
    simp only [build_adjacency, List.flatMap_cons] at hr ⊢
    by_cases hex : e.etype ∈ EXCLUDED_EDGE_TYPES_FOR_TRAVERSAL
    · simp [hex, hr]
    · simp [hex, he.1, he.2, hr]

theorem processNode_empty_adj (adj : String → List AdjEntry) (maxE : Nat)
    (st : ExpSt) (nodeId : String) (h : adj nodeId = []) :
    processNode adj maxE st nodeId = st := by
  rw [processNode, h]
  show (runWhile maxE nodeId 1 [] 0 st []).2.2.1 = st
  rw [runWhile, if_pos (Or.inr rfl)]

theorem withPending_eta (st : ExpSt) (h : st.pending = []) :
    { st with pending := [] } = st := by
  cases st
  simp_all

theorem withNextLevel_eta (st : ExpSt) (h : st.nextLevel = []) :
    { st with nextLevel := [] } = st := by
  cases st
  simp_all

theorem pendingPass_empty (st : ExpSt) (h : st.pending = []) :
    pendingPass st = st := by
  rw [pendingPass, h]
  exact withPending_eta st h

theorem expandLevels_idle (adj : String → List AdjEntry) (maxE : Nat) :
    ∀ (lvl : Nat) (st : ExpSt), st.pending = [] → st.nextLevel = [] →
      expandLevels adj maxE lvl [] st = st := by
  intro lvl
  induction lvl with
  | zero => intro st _ _; rfl
  | succ l ih =>
    intro st hp hn
    rw [expandLevels]
    simp only [List.foldl_nil]
    rw [withNextLevel_eta st hn, pendingPass_empty st hp, hn]
    exact ih st hp hn

theorem find_internal_foldl_absent (x : String) :
    ∀ (edges : List Edge)
      (acc : List EdgeData × List (String × String × String)),
      (∀ e ∈ edges, e.efrom ≠ x ∧ e.eto ≠ x) →
      edges.foldl
        (fun acc e =>
          if e.efrom ∈ [x] ∧ e.eto ∈ [x] then
            let key := (e.efrom, e.eto, e.etype)
            if key ∈ acc.2 then acc
            else
              (acc.1 ++ [⟨e.efrom, e.eto, e.etype, e.properties, none⟩],
                acc.2 ++ [key])
          else acc)
        acc = acc := by
  intro edges
  induction edges with
  | nil => intro acc _; rfl
  | cons e rest ih =>
    intro acc h
    have he := h e (List.mem_cons_self e rest)
    rw [List.foldl_cons]
    have hguard : ¬(e.efrom ∈ [x] ∧ e.eto ∈ [x]) := by
      intro hc
      exact he.1 (List.mem_singleton.mp hc.1)
    rw [if_neg hguard]
    exact ih acc fun e' he' => h e' (List.mem_cons_of_mem _ he')

theorem find_internal_edges_absent (x : String) (edges : List Edge)
    (es : List (String × String × String))
    (h : ∀ e ∈ edges, e.efrom ≠ x ∧ e.eto ≠ x) :
    find_internal_edges [x] edges es = ([], es) := by
  rw [find_internal_edges]
  exact find_internal_foldl_absent x edges ([], es) h

theorem expand_absent (edges : List Edge) (x : String) (lvl maxE : Nat)
    (cross : Bool) (h : ∀ e ∈ edges, e.efrom ≠ x ∧ e.eto ≠ x) :
    expand edges x lvl maxE cross = ([x], []) := by
  have hadj := build_adjacency_absent edges x h
  have hst : expandLevels (build_adjacency edges) maxE lvl [x]
      ⟨[x], [], [], [], [], []⟩ = ⟨[x], [], [], [], [], []⟩ := by
    cases lvl with
    | zero => rfl
    | succ l =>
      rw [expandLevels]
      simp only [List.foldl_cons, List.foldl_nil]
      rw [processNode_empty_adj _ _ _ _ hadj]
      rw [pendingPass_empty _ (by rfl)]
      exact expandLevels_idle _ _ l _ (by rfl) (by rfl)
  rw [expand]
  simp only [expand_graph, hst]
  cases cross with
  | false => simp
  | true => simp [find_internal_edges_absent x edges _ h]

/-! ## Invariants of the ego expansion -/

/-- Well-formedness of a produced edge, relative to the cumulative node set
and a predicate `T` satisfied by every traversable edge type. -/
def EdgeOK (T : String → Prop) (nodes : List String) (e : EdgeData) : Prop :=
  e.efrom ∈ nodes ∧ e.eto ∈ nodes ∧ T e.etype ∧
    (e.etype = "ASSOCIATED_WITH" → get_context_ids e.context ≠ ∅)

/-- Well-formedness of a parked `ASSOCIATED_WITH` edge: its cached context
ids are those of its entry, it really is an association edge, and each
endpoint is either already discovered or is the parked neighbor itself. -/
def PendOK (nodes : List String) (p : Pending) : Prop :=
  p.ctxIds = get_context_ids p.info.context ∧
    p.info.etype = "ASSOCIATED_WITH" ∧
    (p.pfrom ∈ nodes ∨ p.pfrom = p.neighborId) ∧
    (p.pto ∈ nodes ∨ p.pto = p.neighborId)

/-- The state invariant of `expand_graph`. -/
def StOK (T : String → Prop) (st : ExpSt) : Prop :=
  (∀ e ∈ st.edges, EdgeOK T st.nodes e) ∧
    (∀ p ∈ st.pending, PendOK st.nodes p) ∧
    ∀ x ∈ st.nextLevel, x ∈ st.nodes

theorem EdgeOK_mono (T : String → Prop) (n1 n2 : List String) (e : EdgeData)
    (hsub : ∀ x ∈ n1, x ∈ n2) (h : EdgeOK T n1 e) : EdgeOK T n2 e :=
  ⟨hsub _ h.1, hsub _ h.2.1, h.2.2.1, h.2.2.2⟩

theorem PendOK_mono (n1 n2 : List String) (p : Pending)
    (hsub : ∀ x ∈ n1, x ∈ n2) (h : PendOK n1 p) : PendOK n2 p :=
  ⟨h.1, h.2.1, h.2.2.1.imp (hsub _) id, h.2.2.2.imp (hsub _) id⟩

theorem get_ids_truthy (c : Option ContextData)
    (h : get_context_ids c ≠ ∅) : ctxTruthy c = true := by
  by_contra hc
  apply h
  have hc' : ctxTruthy c = false := by simpa using hc
  unfold get_context_ids
  rw [hc']
  simp

theorem iawv_true (n : AdjEntry) (nodes : List String)
    (ctxs : List (Finset String)) (ids : Finset String)
    (h : is_associated_with_valid n nodes ctxs = (true, ids)) :
    ids = get_context_ids n.context ∧ ids ≠ ∅ := by
  simp only [is_associated_with_valid] at h
  split at h
  · exact absurd h (by simp)
  · next h0 =>
    split at h
    · simp only [Prod.mk.injEq, true_and] at h
      exact ⟨h.symm, h ▸ h0⟩
    · split at h
      · simp only [Prod.mk.injEq, true_and] at h
        exact ⟨h.symm, h ▸ h0⟩
      · exact absurd h (by simp)

theorem iawv_snd (n : AdjEntry) (nodes : List String)
    (ctxs : List (Finset String)) (b : Bool) (ids : Finset String)
    (h : is_associated_with_valid n nodes ctxs = (b, ids)) :
    ids = get_context_ids n.context := by
  simp only [is_associated_with_valid] at h
  split at h
  · next h0 =>
    simp only [Prod.mk.injEq] at h
    rw [← h.2, h0]
  · split at h
    · simp only [Prod.mk.injEq] at h
      exact h.2.symm
    · split at h
      · simp only [Prod.mk.injEq] at h
        exact h.2.symm
      · simp only [Prod.mk.injEq] at h
        exact h.2.symm

theorem popGroup_mem : ∀ (bt : List TGroup) (k : String) (n : AdjEntry)
    (bt1 : List TGroup), popGroup bt k = some (n, bt1) →
    n ∈ entriesOf bt ∧ ∀ e ∈ entriesOf bt1, e ∈ entriesOf bt := by
  intro bt
  induction bt with
  | nil => intro k n bt1 h; exact Option.noConfusion h
  | cons g rest ih =>
    intro k n bt1 h
    obtain ⟨k', hd, tl⟩ := g
    simp only [popGroup] at h
    by_cases hk : k' = k
    · rw [if_pos hk] at h
      simp only [Option.some.injEq, Prod.mk.injEq] at h
      obtain ⟨rfl, rfl⟩ := h
      constructor
      · simp [entriesOf]
      · intro e he
        cases tl with
        | nil =>
          simp only [entriesOf, List.flatMap_cons, List.mem_append,
            List.mem_cons, List.mem_nil_iff] at he ⊢
          tauto
        | cons h' t' =>
          simp only [entriesOf, List.flatMap_cons, List.mem_append,
            List.mem_cons, List.mem_nil_iff] at he ⊢
          tauto
    · rw [if_neg hk] at h
      cases hpg : popGroup rest k with
      | none => rw [hpg] at h; exact Option.noConfusion h
      | some r =>
        rw [hpg] at h
        simp only [Option.map_some', Option.some.injEq] at h
        obtain ⟨rfl, rfl⟩ := (Prod.ext_iff.mp h.symm)
        obtain ⟨h1, h2⟩ := ih k r.1 r.2 hpg
        constructor
        · simp only [entriesOf, List.flatMap_cons, List.mem_append]
          right
          exact h1
        · intro e he
          simp only [entriesOf, List.flatMap_cons, List.mem_append] at he ⊢
          rcases he with he | he
          · exact Or.inl he
          · exact Or.inr (h2 e he)

theorem entryEndpoints_cases (nodeId : String) (n : AdjEntry) :
    ((entryEndpoints nodeId n).1 = nodeId ∨ (entryEndpoints nodeId n).1 = n.other) ∧
      ((entryEndpoints nodeId n).2 = nodeId ∨ (entryEndpoints nodeId n).2 = n.other) := by
  by_cases hd : n.dir <;> simp [entryEndpoints, hd]

theorem admitEntry_StOK (T : String → Prop) (nodeId : String) (n : AdjEntry)
    (st1 : ExpSt) (hnode : nodeId ∈ st1.nodes) (hT : T n.etype)
    (hctx : n.etype = "ASSOCIATED_WITH" → get_context_ids n.context ≠ ∅)
    (hst : StOK T st1) :
    StOK T (admitEntry nodeId n st1).1 ∧
      ∀ x ∈ st1.nodes, x ∈ (admitEntry nodeId n st1).1.nodes := by
  have hmono : ∀ x ∈ st1.nodes, x ∈ (admitEntry nodeId n st1).1.nodes := by
    intro x hx
    simp only [admitEntry]
    by_cases hnew : n.other ∈ st1.nodes <;> simp [hnew, hx]
  refine ⟨⟨?_, ?_, ?_⟩, hmono⟩
  · -- edges
    intro e he
    simp only [admitEntry] at he
    rcases List.mem_append.mp he with he | he
    · exact EdgeOK_mono T st1.nodes _ e hmono (hst.1 e he)
    · rw [List.mem_singleton] at he
      subst he
      have hoth : n.other ∈ (admitEntry nodeId n st1).1.nodes := by
        simp only [admitEntry]
        by_cases hnew : n.other ∈ st1.nodes <;> simp [hnew]
      have hend := entryEndpoints_cases nodeId n
      refine ⟨?_, ?_, hT, ?_⟩
      · rcases hend.1 with h | h <;> rw [mkEdgeData] <;> simp only [h]
        · exact hmono _ hnode
        · exact hoth
      · rcases hend.2 with h | h <;> rw [mkEdgeData] <;> simp only [h]
        · exact hmono _ hnode
        · exact hoth
      · intro haw
        have haw' : n.etype = "ASSOCIATED_WITH" := haw
        have hne := hctx haw'
        have hctxfield : (mkEdgeData nodeId n).context = n.context := by
          show (if n.etype = "ASSOCIATED_WITH" ∧ ctxTruthy n.context = true then
              n.context else none) = n.context
          rw [if_pos ⟨haw', get_ids_truthy _ hne⟩]
        show get_context_ids (mkEdgeData nodeId n).context ≠ ∅
        rw [hctxfield]
        exact hne
  · -- pending
    intro p hp
    simp only [admitEntry] at hp
    exact PendOK_mono st1.nodes _ p hmono (hst.2.1 p hp)
  · -- next level
    intro x hx
    simp only [admitEntry] at hx ⊢
    by_cases hnew : n.other ∈ st1.nodes
    · simp only [hnew, not_true, if_neg, decide_eq_true_eq] at hx ⊢
      simp only [show ¬(n.other ∉ st1.nodes) from fun h => h hnew, if_false] at hx ⊢
      exact hst.2.2 x hx
    · simp only [show (n.other ∉ st1.nodes) from hnew, if_true] at hx ⊢
      rcases List.mem_append.mp hx with hx | hx
      · exact List.mem_append.mpr (Or.inl (hst.2.2 x hx))
      · exact List.mem_append.mpr (Or.inr hx)

theorem runPass_StOK (T : String → Prop) (maxE : Nat) (nodeId : String) :
    ∀ (ks : List String) (bt : List TGroup) (count : Nat) (st : ExpSt)
      (tr : List AdjEntry),
      nodeId ∈ st.nodes →
      (∀ e ∈ entriesOf bt, T e.etype) →
      StOK T st →
      StOK T (runPass maxE nodeId ks bt count st tr).st ∧
        ∀ x ∈ st.nodes, x ∈ (runPass maxE nodeId ks bt count st tr).st.nodes := by
  intro ks
  induction ks with
  | nil =>
    intro bt count st tr _ _ hst
    exact ⟨hst, fun x hx => hx⟩
  | cons k ks ih =>
    intro bt count st tr hnode hent hst
    cases hpg : popGroup bt k with
    | none =>
      simp only [runPass, hpg]
      exact ih bt count st tr hnode hent hst
    | some r =>
      obtain ⟨n, bt1⟩ := r
      obtain ⟨hn_mem, hbt1⟩ := popGroup_mem bt k n bt1 hpg
      have hent1 : ∀ e ∈ entriesOf bt1, T e.etype := fun e he => hent e (hbt1 e he)
      have hTn : T n.etype := hent n hn_mem
      simp only [runPass, hpg]
      by_cases hdup : entryKey nodeId n ∈ st.edgeSet
      · simp only [hdup, if_true]
        exact ih bt1 count st (tr ++ [n]) hnode hent1 hst
      · simp only [hdup, if_false]
        by_cases hAW : n.etype = "ASSOCIATED_WITH"
        · simp only [hAW, if_true]
          cases hv : is_associated_with_valid n st.nodes st.ctxs with
          | mk b ctxIds =>
            cases b with
            | false =>
              simp only [hv]
              have hst' : StOK T { st with
                  pending := st.pending ++
                    [⟨(entryEndpoints nodeId n).1, (entryEndpoints nodeId n).2,
                      n.other, n, entryKey nodeId n, ctxIds⟩] } := by
                refine ⟨hst.1, ?_, hst.2.2⟩
                intro p hp
                rcases List.mem_append.mp hp with hp | hp
                · exact hst.2.1 p hp
                · rw [List.mem_singleton] at hp
                  subst hp
                  have hend := entryEndpoints_cases nodeId n
                  refine ⟨(iawv_snd n st.nodes st.ctxs false ctxIds hv).symm ▸ rfl, hAW,
                    ?_, ?_⟩
                  · rcases hend.1 with h | h <;> rw [h]
                    · exact Or.inl hnode
                    · exact Or.inr rfl
                  · rcases hend.2 with h | h <;> rw [h]
                    · exact Or.inl hnode
                    · exact Or.inr rfl
              exact ih bt1 count _ (tr ++ [n]) hnode hent1 hst'
            | true =>
              simp only [hv]
              have hids := iawv_true n st.nodes st.ctxs ctxIds hv
              rw [if_neg hids.2]
              have hst1 : StOK T { st with ctxs := st.ctxs ++ [ctxIds] } := hst
              have hadm := admitEntry_StOK T nodeId n
                { st with ctxs := st.ctxs ++ [ctxIds] } hnode hTn
                (fun _ => hids.1 ▸ hids.2) hst1
              by_cases hcap :
                  (if (admitEntry nodeId n
                      { st with ctxs := st.ctxs ++ [ctxIds] }).2 then count + 1
                    else count) ≥ maxE
              · rw [if_pos hcap]
                exact ⟨hadm.1, hadm.2⟩
              · rw [if_neg hcap]
                refine ⟨(ih bt1 _ _ (tr ++ [n]) (hadm.2 _ hnode) hent1 hadm.1).1,
                  fun x hx =>
                    (ih bt1 _ _ (tr ++ [n]) (hadm.2 _ hnode) hent1 hadm.1).2 x
                      (hadm.2 x hx)⟩
        · simp only [hAW, if_false]
          have hadm := admitEntry_StOK T nodeId n st hnode hTn
            (fun h => absurd h hAW) hst
          by_cases hcap :
              (if (admitEntry nodeId n st).2 then count + 1 else count) ≥ maxE
          · rw [if_pos hcap]
            exact ⟨hadm.1, hadm.2⟩
          · rw [if_neg hcap]
            refine ⟨(ih bt1 _ _ (tr ++ [n]) (hadm.2 _ hnode) hent1 hadm.1).1,
              fun x hx =>
                (ih bt1 _ _ (tr ++ [n]) (hadm.2 _ hnode) hent1 hadm.1).2 x
                  (hadm.2 x hx)⟩

theorem runPass_bt_entries (maxE : Nat) (nodeId : String) :
    ∀ (ks : List String) (bt : List TGroup) (count : Nat) (st : ExpSt)
      (tr : List AdjEntry),
      ∀ e ∈ entriesOf (runPass maxE nodeId ks bt count st tr).bt,
        e ∈ entriesOf bt := by
  intro ks
  induction ks with
  | nil => intro bt count st tr e he; exact he
  | cons k ks ih =>
    intro bt count st tr e he
    cases hpg : popGroup bt k with
    | none =>
      simp only [runPass, hpg] at he
      exact ih bt count st tr e he
    | some r =>
      obtain ⟨n, bt1⟩ := r
      obtain ⟨-, hbt1⟩ := popGroup_mem bt k n bt1 hpg
      simp only [runPass, hpg] at he
      by_cases hdup : entryKey nodeId n ∈ st.edgeSet
      · simp only [hdup, if_true] at he
        exact hbt1 e (ih bt1 count st (tr ++ [n]) e he)
      · simp only [hdup, if_false] at he
        by_cases hAW : n.etype = "ASSOCIATED_WITH"
        · simp only [hAW, if_true] at he
          cases hv : is_associated_with_valid n st.nodes st.ctxs with
          | mk b ctxIds =>
            cases b with
            | false =>
              simp only [hv] at he
              exact hbt1 e (ih bt1 count _ (tr ++ [n]) e he)
            | true =>
              simp only [hv] at he
              by_cases hids0 : ctxIds = ∅
              · rw [if_pos hids0] at he
                by_cases hcap :
                    (if (admitEntry nodeId n st).2 = true then count + 1
                      else count) ≥ maxE
                · rw [if_pos hcap] at he
                  exact hbt1 e he
                · rw [if_neg hcap] at he
                  exact hbt1 e (ih bt1 _ _ (tr ++ [n]) e he)
              · rw [if_neg hids0] at he
                by_cases hcap :
                    (if (admitEntry nodeId n
                          { st with ctxs := st.ctxs ++ [ctxIds] }).2 = true then
                        count + 1
                      else count) ≥ maxE
                · rw [if_pos hcap] at he
                  exact hbt1 e he
                · rw [if_neg hcap] at he
                  exact hbt1 e (ih bt1 _ _ (tr ++ [n]) e he)
        · simp only [hAW, if_false] at he
          by_cases hcap :
              (if (admitEntry nodeId n st).2 = true then count + 1 else count) ≥
                maxE
          · rw [if_pos hcap] at he
            exact hbt1 e he
          · rw [if_neg hcap] at he
            exact hbt1 e (ih bt1 _ _ (tr ++ [n]) e he)

theorem runWhile_StOK (T : String → Prop) (maxE : Nat) (nodeId : String) :
    ∀ (fuel : Nat) (bt : List TGroup) (count : Nat) (st : ExpSt)
      (tr : List AdjEntry),
      nodeId ∈ st.nodes →
      (∀ e ∈ entriesOf bt, T e.etype) →
      StOK T st →
      StOK T (runWhile maxE nodeId fuel bt count st tr).2.2.1 ∧
        ∀ x ∈ st.nodes, x ∈ (runWhile maxE nodeId fuel bt count st tr).2.2.1.nodes := by
  intro fuel
  induction fuel with
  | zero => intro bt count st tr _ _ hst; exact ⟨hst, fun x hx => hx⟩
  | succ fuel ih =>
    intro bt count st tr hnode hent hst
    rw [runWhile]
    by_cases hguard : count ≥ maxE ∨ bt = []
    · rw [if_pos hguard]
      exact ⟨hst, fun x hx => hx⟩
    · rw [if_neg hguard]
      have hrp := runPass_StOK T maxE nodeId (groupKeys bt) bt count st tr hnode hent hst
      have hent' := fun e he =>
        hent e (runPass_bt_entries maxE nodeId (groupKeys bt) bt count st tr e he)
      by_cases hbrk : (runPass maxE nodeId (groupKeys bt) bt count st tr).brk
      · simp only [hbrk, if_true]
        exact hrp
      · simp only [hbrk, Bool.false_eq_true, if_false]
        have := ih (runPass maxE nodeId (groupKeys bt) bt count st tr).bt
          (runPass maxE nodeId (groupKeys bt) bt count st tr).count
          (runPass maxE nodeId (groupKeys bt) bt count st tr).st
          (runPass maxE nodeId (groupKeys bt) bt count st tr).tr
          (hrp.2 _ hnode) hent' hrp.1
        exact ⟨this.1, fun x hx => this.2 x (hrp.2 x hx)⟩

theorem mem_entriesOf_addToGroups :
    ∀ (bt : List TGroup) (a e : AdjEntry),
      e ∈ entriesOf (addToGroups bt a) → e ∈ entriesOf bt ∨ e = a := by
  intro bt
  induction bt with
  | nil =>
    intro a e he
    simp only [addToGroups, entriesOf, List.flatMap_cons, List.flatMap_nil,
      List.mem_append, List.mem_cons, List.mem_nil_iff] at he
    tauto
  | cons g rest ih =>
    intro a e he
    obtain ⟨k, hd, tl⟩ := g
    simp only [addToGroups] at he
    by_cases hk : k = a.etype
    · simp only [hk, if_true] at he
      simp only [entriesOf, List.flatMap_cons, List.mem_append, List.mem_cons,
        List.mem_nil_iff, List.mem_singleton] at he ⊢
      tauto
    · simp only [hk, if_false] at he
      simp only [entriesOf, List.flatMap_cons, List.mem_append, List.mem_cons] at he ⊢
      rcases he with (he | he) | he
      · tauto
      · tauto
      · rcases ih a e (by simpa [entriesOf] using he) with h | h
        · simp only [entriesOf] at h; tauto
        · tauto

theorem entriesOf_foldl_addToGroups :
    ∀ (l : List AdjEntry) (bt : List TGroup) (e : AdjEntry),
      e ∈ entriesOf (l.foldl addToGroups bt) → e ∈ entriesOf bt ∨ e ∈ l := by
  intro l
  induction l with
  | nil => intro bt e he; exact Or.inl he
  | cons a l ih =>
    intro bt e he
    rw [List.foldl_cons] at he
    rcases ih (addToGroups bt a) e he with h | h
    · rcases mem_entriesOf_addToGroups bt a e h with h | h
      · exact Or.inl h
      · exact Or.inr (h ▸ List.mem_cons_self a l)
    · exact Or.inr (List.mem_cons_of_mem a h)

theorem entriesOf_groupByType (l : List AdjEntry) (e : AdjEntry)
    (he : e ∈ entriesOf (groupByType l)) : e ∈ l := by
  rcases entriesOf_foldl_addToGroups l [] e he with h | h
  · simp [entriesOf] at h
  · exact h

theorem processNode_StOK (T : String → Prop) (adj : String → List AdjEntry)
    (maxE : Nat) (st : ExpSt) (nodeId : String) (hnode : nodeId ∈ st.nodes)
    (hadj : ∀ e ∈ adj nodeId, T e.etype) (hst : StOK T st) :
    StOK T (processNode adj maxE st nodeId) ∧
      ∀ x ∈ st.nodes, x ∈ (processNode adj maxE st nodeId).nodes := by
  rw [processNode]
  exact runWhile_StOK T maxE nodeId _ _ 0 st [] hnode
    (fun e he => hadj e (entriesOf_groupByType _ e he)) hst

theorem pendingValid_ne_empty (st : ExpSt) (p : Pending)
    (h : pendingValid st p = true) : p.ctxIds ≠ ∅ := by
  rw [pendingValid, Bool.or_eq_true] at h
  rcases h with h | h
  · rw [List.any_eq_true] at h
    obtain ⟨x, -, hx⟩ := h
    rw [decide_eq_true_eq] at hx
    exact Finset.ne_empty_of_mem hx
  · rw [List.any_eq_true] at h
    obtain ⟨c, -, hc⟩ := h
    intro he
    rw [he] at hc
    simp at hc

theorem pendingStep_StOK (T : String → Prop) (hTA : T "ASSOCIATED_WITH")
    (st : ExpSt) (p : Pending) (hp : PendOK st.nodes p) (hst : StOK T st) :
    StOK T (pendingStep st p) ∧ ∀ x ∈ st.nodes, x ∈ (pendingStep st p).nodes := by
  rw [pendingStep]
  by_cases hv : pendingValid st p
  · rw [if_pos hv]
    by_cases hdup : p.key ∈ st.edgeSet
    · rw [if_pos hdup]
      exact ⟨hst, fun x hx => hx⟩
    · rw [if_neg hdup]
      have hidne : p.ctxIds ≠ ∅ := pendingValid_ne_empty st p hv
      have hgetne : get_context_ids p.info.context ≠ ∅ := hp.1 ▸ hidne
      have hmono : ∀ x ∈ st.nodes,
          x ∈ (if p.neighborId ∉ st.nodes then st.nodes ++ [p.neighborId]
              else st.nodes) := by
        intro x hx
        by_cases hnew : p.neighborId ∈ st.nodes
        · rw [if_neg (fun hc => hc hnew)]
          exact hx
        · rw [if_pos hnew]
          exact List.mem_append.mpr (Or.inl hx)
      have hnb : p.neighborId ∈
          (if p.neighborId ∉ st.nodes then st.nodes ++ [p.neighborId]
            else st.nodes) := by
        by_cases hnew : p.neighborId ∈ st.nodes
        · rw [if_neg (fun hc => hc hnew)]
          exact hnew
        · rw [if_pos hnew]
          exact List.mem_append.mpr (Or.inr (List.mem_singleton.mpr rfl))
      refine ⟨⟨?_, ?_, ?_⟩, hmono⟩
      · intro e he
        rcases List.mem_append.mp he with he | he
        · exact EdgeOK_mono T st.nodes _ e hmono (hst.1 e he)
        · rw [List.mem_singleton] at he
          subst he
          refine ⟨?_, ?_, hTA, ?_⟩
          · rcases hp.2.2.1 with h | h
            · exact hmono _ h
            · exact h ▸ hnb
          · rcases hp.2.2.2 with h | h
            · exact hmono _ h
            · exact h ▸ hnb
          · intro _
            show get_context_ids
                (if ctxTruthy p.info.context = true then p.info.context
                  else none) ≠ ∅
            rw [if_pos (get_ids_truthy _ hgetne)]
            exact hgetne
      · intro q hq
        exact PendOK_mono st.nodes _ q hmono (hst.2.1 q hq)
      · intro x hx
        by_cases hnew : p.neighborId ∈ st.nodes
        · have hcond : ¬(p.neighborId ∉ st.nodes) := fun hc => hc hnew
          simp only [if_neg hcond] at hx ⊢
          exact hst.2.2 x hx
        · simp only [if_pos hnew] at hx ⊢
          rcases List.mem_append.mp hx with hx | hx
          · exact List.mem_append.mpr (Or.inl (hst.2.2 x hx))
          · exact List.mem_append.mpr (Or.inr hx)
  · rw [if_neg hv]
    refine ⟨⟨hst.1, ?_, hst.2.2⟩, fun x hx => hx⟩
    intro q hq
    rcases List.mem_append.mp hq with hq | hq
    · exact hst.2.1 q hq
    · rw [List.mem_singleton] at hq
      exact hq ▸ hp

theorem foldl_pendingStep_StOK (T : String → Prop) (hTA : T "ASSOCIATED_WITH") :
    ∀ (ps : List Pending) (st : ExpSt), StOK T st →
      (∀ q ∈ ps, PendOK st.nodes q) →
      StOK T (ps.foldl pendingStep st) ∧
        ∀ x ∈ st.nodes, x ∈ (ps.foldl pendingStep st).nodes := by
  intro ps
  induction ps with
  | nil => intro st hst _; exact ⟨hst, fun x hx => hx⟩
  | cons p ps ih =>
    intro st hst hps
    rw [List.foldl_cons]
    have hstep := pendingStep_StOK T hTA st p (hps p (List.mem_cons_self p ps)) hst
    have := ih (pendingStep st p) hstep.1
      (fun q hq => PendOK_mono st.nodes _ q hstep.2
        (hps q (List.mem_cons_of_mem p hq)))
    exact ⟨this.1, fun x hx => this.2 x (hstep.2 x hx)⟩

theorem pendingPass_StOK (T : String → Prop) (hTA : T "ASSOCIATED_WITH")
    (st : ExpSt) (hst : StOK T st) :
    StOK T (pendingPass st) ∧ ∀ x ∈ st.nodes, x ∈ (pendingPass st).nodes := by
  rw [pendingPass]
  have hst0 : StOK T { st with pending := [] } := by
    refine ⟨hst.1, ?_, hst.2.2⟩
    intro q hq
    simp at hq
  exact foldl_pendingStep_StOK T hTA st.pending { st with pending := [] } hst0
    hst.2.1

theorem foldl_processNode_StOK (T : String → Prop)
    (adj : String → List AdjEntry) (maxE : Nat)
    (hadjAll : ∀ (nid : String), ∀ e ∈ adj nid, T e.etype) :
    ∀ (cs : List String) (st : ExpSt), StOK T st →
      (∀ x ∈ cs, x ∈ st.nodes) →
      StOK T (cs.foldl (processNode adj maxE) st) ∧
        ∀ x ∈ st.nodes, x ∈ (cs.foldl (processNode adj maxE) st).nodes := by
  intro cs
  induction cs with
  | nil => intro st hst _; exact ⟨hst, fun x hx => hx⟩
  | cons c cs ih =>
    intro st hst hcs
    rw [List.foldl_cons]
    have hstep := processNode_StOK T adj maxE st c
      (hcs c (List.mem_cons_self c cs)) (hadjAll c) hst
    have := ih (processNode adj maxE st c) hstep.1
      (fun x hx => hstep.2 x (hcs x (List.mem_cons_of_mem c hx)))
    exact ⟨this.1, fun x hx => this.2 x (hstep.2 x hx)⟩

theorem expandLevels_StOK (T : String → Prop) (adj : String → List AdjEntry)
    (maxE : Nat) (hadjAll : ∀ (nid : String), ∀ e ∈ adj nid, T e.etype)
    (hTA : T "ASSOCIATED_WITH") :
    ∀ (lvl : Nat) (current : List String) (st : ExpSt), StOK T st →
      (∀ x ∈ current, x ∈ st.nodes) →
      StOK T (expandLevels adj maxE lvl current st) := by
  intro lvl
  induction lvl with
  | zero => intro current st hst _; exact hst
  | succ l ih =>
    intro current st hst hcur
    rw [expandLevels]
    have hst0 : StOK T { st with nextLevel := [] } := by
      refine ⟨hst.1, hst.2.1, ?_⟩
      intro x hx
      simp at hx
    have h1 := foldl_processNode_StOK T adj maxE hadjAll current
      { st with nextLevel := [] } hst0 hcur
    have h2 := pendingPass_StOK T hTA _ h1.1
    exact ih _ _ h2.1 h2.1.2.2

theorem find_internal_foldl_endpoints (nodes : List String) :
    ∀ (edges : List Edge)
      (acc : List EdgeData × List (String × String × String)),
      (∀ e ∈ acc.1, e.efrom ∈ nodes ∧ e.eto ∈ nodes) →
      ∀ e ∈ (edges.foldl
          (fun acc e =>
            if e.efrom ∈ nodes ∧ e.eto ∈ nodes then
              let key := (e.efrom, e.eto, e.etype)
              if key ∈ acc.2 then acc
              else
                (acc.1 ++ [⟨e.efrom, e.eto, e.etype, e.properties, none⟩],
                  acc.2 ++ [key])
            else acc)
          acc).1, e.efrom ∈ nodes ∧ e.eto ∈ nodes := by
  intro edges
  induction edges with
  | nil => intro acc hacc e he; exact hacc e he
  | cons ed rest ih =>
    intro acc hacc e he
    rw [List.foldl_cons] at he
    refine ih _ ?_ e he
    intro e' he'
    by_cases hin : ed.efrom ∈ nodes ∧ ed.eto ∈ nodes
    · rw [if_pos hin] at he'
      by_cases hdup : (ed.efrom, ed.eto, ed.etype) ∈ acc.2
      · rw [if_pos hdup] at he'
        exact hacc e' he'
      · rw [if_neg hdup] at he'
        rcases List.mem_append.mp he' with he' | he'
        · exact hacc e' he'
        · rw [List.mem_singleton] at he'
          subst he'
          exact hin
    · rw [if_neg hin] at he'
      exact hacc e' he'

theorem find_internal_edges_endpoints (nodes : List String)
    (all_edges : List Edge) (es : List (String × String × String)) :
    ∀ e ∈ (find_internal_edges nodes all_edges es).1,
      e.efrom ∈ nodes ∧ e.eto ∈ nodes := by
  rw [find_internal_edges]
  exact find_internal_foldl_endpoints nodes all_edges ([], es)
    (by intro e he; simp at he)

theorem build_adjacency_not_excluded (edges : List Edge) (node : String)
    (e : AdjEntry) (h : e ∈ build_adjacency edges node) :
    e.etype ≠ "RULES_OUT" ∧ e.etype ≠ "PERTINENT_NEGATIVE" := by
  simp only [build_adjacency, List.mem_flatMap] at h
  obtain ⟨ed, -, hmem⟩ := h
  by_cases hex : ed.etype ∈ EXCLUDED_EDGE_TYPES_FOR_TRAVERSAL
  · rw [if_pos hex] at hmem
    simp at hmem
  · rw [if_neg hex] at hmem
    simp only [EXCLUDED_EDGE_TYPES_FOR_TRAVERSAL, List.mem_cons,
      List.mem_singleton, not_or] at hex
    have hty : e.etype = ed.etype := by
      rcases List.mem_append.mp hmem with hm | hm
      · split at hm
        · rw [List.mem_singleton] at hm
          subst hm
          rfl
        · simp at hm
      · split at hm
        · rw [List.mem_singleton] at hm
          subst hm
          rfl
        · simp at hm
    rw [hty]
    simpa using hex

/-! ## Fan-out accounting and round-robin order of the selection loop -/

theorem admitEntry_nodes_len (nodeId : String) (n : AdjEntry) (st1 : ExpSt) :
    (admitEntry nodeId n st1).1.nodes.length =
      st1.nodes.length + (if (admitEntry nodeId n st1).2 then 1 else 0) := by
  rw [admitEntry]
  by_cases hnew : n.other ∈ st1.nodes
  · have hcond : ¬(n.other ∉ st1.nodes) := fun hc => hc hnew
    simp [hcond]
  · simp [hnew]

theorem runPass_count (maxE : Nat) (nodeId : String) :
    ∀ (ks : List String) (bt : List TGroup) (count : Nat) (st : ExpSt)
      (tr : List AdjEntry), count < maxE →
      count ≤ (runPass maxE nodeId ks bt count st tr).count ∧
        (runPass maxE nodeId ks bt count st tr).count ≤ maxE ∧
        (runPass maxE nodeId ks bt count st tr).st.nodes.length + count =
          st.nodes.length + (runPass maxE nodeId ks bt count st tr).count ∧
        ((runPass maxE nodeId ks bt count st tr).brk = true →
          (runPass maxE nodeId ks bt count st tr).count = maxE) ∧
        ((runPass maxE nodeId ks bt count st tr).brk = false →
          (runPass maxE nodeId ks bt count st tr).count < maxE) := by
  intro ks
  induction ks with
  | nil =>
    intro bt count st tr hlt
    refine ⟨le_refl _, le_of_lt hlt, (by omega : (st.nodes.length + count : Nat) = st.nodes.length + count), fun h => Bool.noConfusion h, fun _ => hlt⟩
  | cons k ks ih =>
    intro bt count st tr hlt
    cases hpg : popGroup bt k with
    | none =>
      simp only [runPass, hpg]
      exact ih bt count st tr hlt
    | some r =>
      obtain ⟨n, bt1⟩ := r
      simp only [runPass, hpg]
      by_cases hdup : entryKey nodeId n ∈ st.edgeSet
      · simp only [hdup, if_true]
        exact ih bt1 count st (tr ++ [n]) hlt
      · simp only [hdup, if_false]
        by_cases hAW : n.etype = "ASSOCIATED_WITH"
        · simp only [hAW, if_true]
          cases hv : is_associated_with_valid n st.nodes st.ctxs with
          | mk b ctxIds =>
            cases b with
            | false =>
              simp only [hv]
              exact ih bt1 count _ (tr ++ [n]) hlt
            | true =>
              simp only [hv]
              by_cases hids0 : ctxIds = ∅
              · rw [if_pos hids0]
                have hlen := admitEntry_nodes_len nodeId n st
                by_cases hnew : (admitEntry nodeId n st).2
                · simp only [hnew, reduceIte] at hlen ⊢
                  by_cases hcap : count + 1 ≥ maxE
                  · rw [if_pos hcap]
                    exact ⟨Nat.le_succ count, (by omega : count + 1 ≤ maxE),
                      (by omega :
                        (admitEntry nodeId n st).1.nodes.length + count =
                          st.nodes.length + (count + 1)),
                      fun _ => (by omega : count + 1 = maxE),
                      fun h => Bool.noConfusion h⟩
                  · rw [if_neg hcap]
                    have := ih bt1 (count + 1) (admitEntry nodeId n st).1
                      (tr ++ [n]) (by omega)
                    exact ⟨by omega, this.2.1, by omega, this.2.2.2.1,
                      this.2.2.2.2⟩
                · simp only [hnew, Bool.false_eq_true, if_false, reduceIte] at hlen ⊢
                  rw [if_neg (by omega : ¬count ≥ maxE)]
                  have := ih bt1 count (admitEntry nodeId n st).1
                    (tr ++ [n]) hlt
                  exact ⟨this.1, this.2.1, by omega, this.2.2.2.1, this.2.2.2.2⟩
              · rw [if_neg hids0]
                have hlen := admitEntry_nodes_len nodeId n
                  { st with ctxs := st.ctxs ++ [ctxIds] }
                by_cases hnew :
                    (admitEntry nodeId n { st with ctxs := st.ctxs ++ [ctxIds] }).2
                · simp only [hnew, reduceIte] at hlen ⊢
                  by_cases hcap : count + 1 ≥ maxE
                  · rw [if_pos hcap]
                    exact ⟨Nat.le_succ count, (by omega : count + 1 ≤ maxE),
                      (by omega :
                        (admitEntry nodeId n
                            { st with ctxs := st.ctxs ++ [ctxIds] }).1.nodes.length +
                          count = st.nodes.length + (count + 1)),
                      fun _ => (by omega : count + 1 = maxE),
                      fun h => Bool.noConfusion h⟩
                  · rw [if_neg hcap]
                    have := ih bt1 (count + 1)
                      (admitEntry nodeId n { st with ctxs := st.ctxs ++ [ctxIds] }).1
                      (tr ++ [n]) (by omega)
                    exact ⟨by omega, this.2.1, by omega, this.2.2.2.1,
                      this.2.2.2.2⟩
                · simp only [hnew, Bool.false_eq_true, if_false, reduceIte] at hlen ⊢
                  rw [if_neg (by omega : ¬count ≥ maxE)]
                  have := ih bt1 count
                    (admitEntry nodeId n { st with ctxs := st.ctxs ++ [ctxIds] }).1
                    (tr ++ [n]) hlt
                  exact ⟨this.1, this.2.1, by omega, this.2.2.2.1, this.2.2.2.2⟩
        · simp only [hAW, if_false]
          have hlen := admitEntry_nodes_len nodeId n st
          by_cases hnew : (admitEntry nodeId n st).2
          · simp only [hnew, reduceIte] at hlen ⊢
            by_cases hcap : count + 1 ≥ maxE
            · rw [if_pos hcap]
              exact ⟨Nat.le_succ count, (by omega : count + 1 ≤ maxE),
                (by omega :
                  (admitEntry nodeId n st).1.nodes.length + count =
                    st.nodes.length + (count + 1)),
                fun _ => (by omega : count + 1 = maxE),
                fun h => Bool.noConfusion h⟩
            · rw [if_neg hcap]
              have := ih bt1 (count + 1) (admitEntry nodeId n st).1
                (tr ++ [n]) (by omega)
              exact ⟨by omega, this.2.1, by omega, this.2.2.2.1, this.2.2.2.2⟩
          · simp only [hnew, Bool.false_eq_true, if_false, reduceIte] at hlen ⊢
            rw [if_neg (by omega : ¬count ≥ maxE)]
            have := ih bt1 count (admitEntry nodeId n st).1 (tr ++ [n]) hlt
            exact ⟨this.1, this.2.1, by omega, this.2.2.2.1, this.2.2.2.2⟩

theorem popGroup_size : ∀ (bt : List TGroup) (k : String) (n : AdjEntry)
    (bt1 : List TGroup), popGroup bt k = some (n, bt1) →
    btSize bt1 + 1 = btSize bt := by
  intro bt
  induction bt with
  | nil => intro k n bt1 h; exact Option.noConfusion h
  | cons g rest ih =>
    intro k n bt1 h
    obtain ⟨k', hd, tl⟩ := g
    simp only [popGroup] at h
    by_cases hk : k' = k
    · rw [if_pos hk] at h
      simp only [Option.some.injEq, Prod.mk.injEq] at h
      obtain ⟨-, rfl⟩ := h
      cases tl with
      | nil => simp [btSize]; omega
      | cons h' t' => simp [btSize]; omega
    · rw [if_neg hk] at h
      cases hpg : popGroup rest k with
      | none => rw [hpg] at h; exact Option.noConfusion h
      | some r =>
        rw [hpg] at h
        simp only [Option.map_some', Option.some.injEq] at h
        obtain ⟨-, rfl⟩ := (Prod.ext_iff.mp h.symm)
        have := ih k r.1 r.2 hpg
        simp only [btSize, List.map_cons, List.sum_cons] at this ⊢
        omega

theorem runPass_size_le (maxE : Nat) (nodeId : String) :
    ∀ (ks : List String) (bt : List TGroup) (count : Nat) (st : ExpSt)
      (tr : List AdjEntry),
      btSize (runPass maxE nodeId ks bt count st tr).bt ≤ btSize bt := by
  intro ks
  induction ks with
  | nil => intro bt count st tr; exact le_refl _
  | cons k ks ih =>
    intro bt count st tr
    cases hpg : popGroup bt k with
    | none =>
      simp only [runPass, hpg]
      exact ih bt count st tr
    | some r =>
      obtain ⟨n, bt1⟩ := r
      have hsz := popGroup_size bt k n bt1 hpg
      simp only [runPass, hpg]
      by_cases hdup : entryKey nodeId n ∈ st.edgeSet
      · simp only [hdup, if_true]
        exact le_trans (ih bt1 count st (tr ++ [n])) (by omega)
      · simp only [hdup, if_false]
        by_cases hAW : n.etype = "ASSOCIATED_WITH"
        · simp only [hAW, if_true]
          cases hv : is_associated_with_valid n st.nodes st.ctxs with
          | mk b ctxIds =>
            cases b with
            | false =>
              simp only [hv]
              exact le_trans (ih bt1 count _ (tr ++ [n])) (by omega)
            | true =>
              simp only [hv]
              by_cases hids0 : ctxIds = ∅
              · rw [if_pos hids0]
                by_cases hcap :
                    (if (admitEntry nodeId n st).2 = true then count + 1
                      else count) ≥ maxE
                · rw [if_pos hcap]
                  show btSize bt1 ≤ btSize bt
                  omega
                · rw [if_neg hcap]
                  exact le_trans (ih bt1 _ _ (tr ++ [n])) (by omega)
              · rw [if_neg hids0]
                by_cases hcap :
                    (if (admitEntry nodeId n
                          { st with ctxs := st.ctxs ++ [ctxIds] }).2 = true then
                        count + 1
                      else count) ≥ maxE
                · rw [if_pos hcap]
                  show btSize bt1 ≤ btSize bt
                  omega
                · rw [if_neg hcap]
                  exact le_trans (ih bt1 _ _ (tr ++ [n])) (by omega)
        · simp only [hAW, if_false]
          by_cases hcap :
              (if (admitEntry nodeId n st).2 = true then count + 1 else count) ≥
                maxE
          · rw [if_pos hcap]
            show btSize bt1 ≤ btSize bt
            omega
          · rw [if_neg hcap]
            exact le_trans (ih bt1 _ _ (tr ++ [n])) (by omega)

theorem runPass_size_lt (maxE : Nat) (nodeId : String) (k : String)
    (ks : List String) (bt : List TGroup) (count : Nat) (st : ExpSt)
    (tr : List AdjEntry) (n : AdjEntry) (bt1 : List TGroup)
    (hpg : popGroup bt k = some (n, bt1)) :
    btSize (runPass maxE nodeId (k :: ks) bt count st tr).bt < btSize bt := by
  have hsz := popGroup_size bt k n bt1 hpg
  have hle1 := runPass_size_le maxE nodeId ks bt1
  simp only [runPass, hpg]
  by_cases hdup : entryKey nodeId n ∈ st.edgeSet
  · simp only [hdup, if_true]
    exact lt_of_le_of_lt (runPass_size_le maxE nodeId ks bt1 count st (tr ++ [n]))
      (by omega)
  · simp only [hdup, if_false]
    by_cases hAW : n.etype = "ASSOCIATED_WITH"
    · simp only [hAW, if_true]
      cases hv : is_associated_with_valid n st.nodes st.ctxs with
      | mk b ctxIds =>
        cases b with
        | false =>
          simp only [hv]
          exact lt_of_le_of_lt (runPass_size_le maxE nodeId ks bt1 count _ (tr ++ [n]))
            (by omega)
        | true =>
          simp only [hv]
          by_cases hids0 : ctxIds = ∅
          · rw [if_pos hids0]
            by_cases hcap :
                (if (admitEntry nodeId n st).2 = true then count + 1
                  else count) ≥ maxE
            · rw [if_pos hcap]
              show btSize bt1 < btSize bt
              omega
            · rw [if_neg hcap]
              exact lt_of_le_of_lt (runPass_size_le maxE nodeId ks bt1 _ _ (tr ++ [n]))
                (by omega)
          · rw [if_neg hids0]
            by_cases hcap :
                (if (admitEntry nodeId n
                      { st with ctxs := st.ctxs ++ [ctxIds] }).2 = true then
                    count + 1
                  else count) ≥ maxE
            · rw [if_pos hcap]
              show btSize bt1 < btSize bt
              omega
            · rw [if_neg hcap]
              exact lt_of_le_of_lt (runPass_size_le maxE nodeId ks bt1 _ _ (tr ++ [n]))
                (by omega)
    · simp only [hAW, if_false]
      by_cases hcap :
          (if (admitEntry nodeId n st).2 = true then count + 1 else count) ≥ maxE
      · rw [if_pos hcap]
        show btSize bt1 < btSize bt
        omega
      · rw [if_neg hcap]
        exact lt_of_le_of_lt (runPass_size_le maxE nodeId ks bt1 _ _ (tr ++ [n]))
          (by omega)

theorem runWhile_count (maxE : Nat) (nodeId : String) :
    ∀ (fuel : Nat) (bt : List TGroup) (count : Nat) (st : ExpSt)
      (tr : List AdjEntry), count ≤ maxE →
      count ≤ (runWhile maxE nodeId fuel bt count st tr).2.1 ∧
        (runWhile maxE nodeId fuel bt count st tr).2.1 ≤ maxE ∧
        (runWhile maxE nodeId fuel bt count st tr).2.2.1.nodes.length + count =
          st.nodes.length + (runWhile maxE nodeId fuel bt count st tr).2.1 := by
  intro fuel
  induction fuel with
  | zero =>
    intro bt count st tr hle
    exact ⟨le_refl _, hle, rfl⟩
  | succ fuel ih =>
    intro bt count st tr hle
    rw [runWhile]
    by_cases hguard : count ≥ maxE ∨ bt = []
    · rw [if_pos hguard]
      exact ⟨le_refl _, hle, rfl⟩
    · rw [if_neg hguard]
      have hlt : count < maxE := by
        rcases not_or.mp hguard with ⟨h1, -⟩
        omega
      have hrp := runPass_count maxE nodeId (groupKeys bt) bt count st tr hlt
      by_cases hbrk : (runPass maxE nodeId (groupKeys bt) bt count st tr).brk
      · simp only [hbrk, if_true]
        exact ⟨hrp.1, hrp.2.1, hrp.2.2.1⟩
      · simp only [hbrk, Bool.false_eq_true, if_false]
        have := ih (runPass maxE nodeId (groupKeys bt) bt count st tr).bt
          (runPass maxE nodeId (groupKeys bt) bt count st tr).count
          (runPass maxE nodeId (groupKeys bt) bt count st tr).st
          (runPass maxE nodeId (groupKeys bt) bt count st tr).tr
          hrp.2.1
        obtain ⟨ha, hb, hc⟩ := this
        refine ⟨le_trans hrp.1 ha, hb, ?_⟩
        have := hrp.2.2.1
        omega

theorem runWhile_stop (maxE : Nat) (nodeId : String) :
    ∀ (fuel : Nat) (bt : List TGroup) (count : Nat) (st : ExpSt)
      (tr : List AdjEntry), btSize bt < fuel → count ≤ maxE →
      (runWhile maxE nodeId fuel bt count st tr).1 = [] ∨
        (runWhile maxE nodeId fuel bt count st tr).2.1 = maxE := by
  intro fuel
  induction fuel with
  | zero => intro bt count st tr hsz _; omega
  | succ fuel ih =>
    intro bt count st tr hsz hle
    rw [runWhile]
    by_cases hguard : count ≥ maxE ∨ bt = []
    · rw [if_pos hguard]
      rcases hguard with h | h
      · exact Or.inr (show count = maxE by omega)
      · exact Or.inl h
    · rw [if_neg hguard]
      obtain ⟨h1, h2⟩ := not_or.mp hguard
      have hlt : count < maxE := by omega
      have hrp := runPass_count maxE nodeId (groupKeys bt) bt count st tr hlt
      have hslt : btSize (runPass maxE nodeId (groupKeys bt) bt count st tr).bt <
          btSize bt := by
        cases bt with
        | nil => exact absurd rfl h2
        | cons g rest =>
          obtain ⟨k, hd, tl⟩ := g
          cases tl with
          | nil =>
            exact runPass_size_lt maxE nodeId k (groupKeys rest)
              ((k, hd, []) :: rest) count st tr hd rest (by simp [popGroup])
          | cons h' t' =>
            exact runPass_size_lt maxE nodeId k (groupKeys rest)
              ((k, hd, h' :: t') :: rest) count st tr hd ((k, h', t') :: rest)
              (by simp [popGroup])
      by_cases hbrk : (runPass maxE nodeId (groupKeys bt) bt count st tr).brk
      · simp only [hbrk, if_true]
        exact Or.inr (hrp.2.2.2.1 hbrk)
      · simp only [hbrk, Bool.false_eq_true, if_false]
        exact ih (runPass maxE nodeId (groupKeys bt) bt count st tr).bt
          (runPass maxE nodeId (groupKeys bt) bt count st tr).count
          (runPass maxE nodeId (groupKeys bt) bt count st tr).st
          (runPass maxE nodeId (groupKeys bt) bt count st tr).tr
          (by omega) hrp.2.1

theorem groupKeys_addToGroups (bt : List TGroup) (a : AdjEntry) :
    groupKeys (addToGroups bt a) =
      if a.etype ∈ groupKeys bt then groupKeys bt
      else groupKeys bt ++ [a.etype] := by
  induction bt with
  | nil => simp [addToGroups, groupKeys]
  | cons g rest ih =>
    obtain ⟨k, hd, tl⟩ := g
    simp only [addToGroups]
    by_cases hk : k = a.etype
    · rw [if_pos hk]
      subst hk
      simp [groupKeys]
    · rw [if_neg hk]
      simp only [groupKeys, List.map_cons] at ih ⊢
      rw [ih]
      by_cases hmem : a.etype ∈ List.map (fun g => g.1) rest
      · rw [if_pos hmem,
          if_pos (List.mem_cons_of_mem k hmem)]
      · rw [if_neg hmem,
          if_neg (by
            intro hc
            rcases List.mem_cons.mp hc with hc | hc
            · exact hk hc.symm
            · exact hmem hc)]
        simp

theorem groupKeys_foldl_nodup :
    ∀ (l : List AdjEntry) (bt : List TGroup), (groupKeys bt).Nodup →
      (groupKeys (l.foldl addToGroups bt)).Nodup := by
  intro l
  induction l with
  | nil => intro bt h; exact h
  | cons a l ih =>
    intro bt h
    rw [List.foldl_cons]
    apply ih
    rw [groupKeys_addToGroups]
    by_cases hmem : a.etype ∈ groupKeys bt
    · rw [if_pos hmem]; exact h
    · rw [if_neg hmem]
      simp [List.nodup_append, h, hmem]

theorem groupKeys_groupByType_nodup (l : List AdjEntry) :
    (groupKeys (groupByType l)).Nodup :=
  groupKeys_foldl_nodup l [] (by simp [groupKeys])

theorem popGroup_append :
    ∀ (done : List TGroup) (k : String) (bt : List TGroup),
      k ∉ groupKeys done →
      popGroup (done ++ bt) k =
        (popGroup bt k).map fun r => (r.1, done ++ r.2) := by
  intro done
  induction done with
  | nil =>
    intro k bt _
    cases h : popGroup bt k with
    | none => simp [h]
    | some r => simp [h]
  | cons g done' ih =>
    intro k bt hk
    obtain ⟨k', hd, tl⟩ := g
    have hk' : k' ≠ k := by
      intro hc
      exact hk (by simp [groupKeys, hc])
    have hk2 : k ∉ groupKeys done' := by
      intro hc
      exact hk (by simp [groupKeys] at hc ⊢; exact Or.inr hc)
    rw [List.cons_append]
    simp only [popGroup, if_neg hk']
    rw [ih k bt hk2]
    cases h : popGroup bt k with
    | none => simp
    | some r => simp

theorem runPass_rr (maxE : Nat) (nodeId : String) :
    ∀ (suffix done : List TGroup) (count : Nat) (st : ExpSt)
      (tr : List AdjEntry),
      (groupKeys (done ++ suffix)).Nodup →
      ∃ j, j ≤ suffix.length ∧
        (runPass maxE nodeId (groupKeys suffix) (done ++ suffix) count st tr).tr =
          tr ++ (heads suffix).take j ∧
        ((runPass maxE nodeId (groupKeys suffix) (done ++ suffix) count st tr).brk =
            false →
          j = suffix.length ∧
          (runPass maxE nodeId (groupKeys suffix) (done ++ suffix) count st tr).bt =
            done ++ advance suffix) := by
  intro suffix
  induction suffix with
  | nil =>
    intro done count st tr _
    refine ⟨0, le_refl 0, ?_, fun _ => ⟨rfl, ?_⟩⟩
    · show tr = tr ++ (heads []).take 0
      simp [heads]
    · show done ++ [] = done ++ advance []
      rfl
  | cons g suffix' ih =>
    intro done count st tr hnd
    obtain ⟨k, hd, tl⟩ := g
    have hkdone : k ∉ groupKeys done := by
      have hnd2 : (groupKeys done ++ k :: groupKeys suffix').Nodup := by
        simpa [groupKeys, List.map_append] using hnd
      intro hc
      exact (List.nodup_append.mp hnd2).2.2 hc (List.mem_cons_self _ _)
    cases tl with
    | nil =>
      have hpg : popGroup (done ++ (k, hd, ([] : List AdjEntry)) :: suffix') k =
          some (hd, done ++ suffix') := by
        rw [popGroup_append done k _ hkdone]
        simp [popGroup]
      have hkseq : groupKeys ((k, hd, ([] : List AdjEntry)) :: suffix') =
          k :: groupKeys suffix' := rfl
      have hheads : heads ((k, hd, ([] : List AdjEntry)) :: suffix') =
          hd :: heads suffix' := rfl
      have hlen2 : ((k, hd, ([] : List AdjEntry)) :: suffix').length =
          suffix'.length + 1 := rfl
      have hadv : advance ((k, hd, ([] : List AdjEntry)) :: suffix') =
          advance suffix' := rfl
      have hnd' : (groupKeys (done ++ suffix')).Nodup := by
        have hnd2 : (groupKeys done ++ k :: groupKeys suffix').Nodup := by
          simpa [groupKeys, List.map_append] using hnd
        have hsub : List.Sublist (groupKeys done ++ groupKeys suffix')
            (groupKeys done ++ k :: groupKeys suffix') :=
          List.Sublist.append_left
            (List.Sublist.cons k (List.Sublist.refl (groupKeys suffix')))
            (groupKeys done)
        have := hnd2.sublist hsub
        simpa [groupKeys, List.map_append] using this
      have ihx : ∀ (C : Nat) (S : ExpSt) (TR : List AdjEntry),
          ∃ j, j ≤ suffix'.length ∧
            (runPass maxE nodeId (groupKeys suffix') (done ++ suffix') C S TR).tr =
              TR ++ (heads suffix').take j ∧
            ((runPass maxE nodeId (groupKeys suffix') (done ++ suffix') C S TR).brk =
                false →
              j = suffix'.length ∧
              (runPass maxE nodeId (groupKeys suffix') (done ++ suffix') C S TR).bt =
                done ++ advance suffix') :=
        fun C S TR => ih done C S TR hnd'
      rw [hkseq]
      simp only [runPass, hpg]
      by_cases hdup : entryKey nodeId hd ∈ st.edgeSet
      · simp only [hdup, if_true]
        obtain ⟨j, hj, htr, hbt⟩ := ihx count st (tr ++ [hd])
        refine ⟨j + 1, by rw [hlen2]; omega, ?_, ?_⟩
        · rw [htr]
          simp [hheads]
        · intro hb
          obtain ⟨hj2, hbt2⟩ := hbt hb
          refine ⟨by rw [hlen2]; omega, ?_⟩
          rw [hadv]
          exact hbt2
      · simp only [hdup, if_false]
        by_cases hAW : hd.etype = "ASSOCIATED_WITH"
        · simp only [hAW, if_true]
          cases hv : is_associated_with_valid hd st.nodes st.ctxs with
          | mk b ctxIds =>
            cases b with
            | false =>
              simp only [hv]
              obtain ⟨j, hj, htr, hbt⟩ := ihx count
                { st with
                    pending := st.pending ++
                      [⟨(entryEndpoints nodeId hd).1, (entryEndpoints nodeId hd).2,
                        hd.other, hd, entryKey nodeId hd, ctxIds⟩] } (tr ++ [hd])
              refine ⟨j + 1, by rw [hlen2]; omega, ?_, ?_⟩
              · rw [htr]
                simp [hheads]
              · intro hb
                obtain ⟨hj2, hbt2⟩ := hbt hb
                refine ⟨by rw [hlen2]; omega, ?_⟩
                rw [hadv]
                exact hbt2
            | true =>
              simp only [hv]
              by_cases hids0 : ctxIds = ∅
              · rw [if_pos hids0]
                by_cases hcap :
                    (if (admitEntry nodeId hd st).2 = true then count + 1
                      else count) ≥ maxE
                · rw [if_pos hcap]
                  refine ⟨1, by rw [hlen2]; omega, by simp [hheads],
                    fun hb => Bool.noConfusion hb⟩
                · rw [if_neg hcap]
                  obtain ⟨j, hj, htr, hbt⟩ := ihx
                    (if (admitEntry nodeId hd st).2 = true then count + 1
                      else count)
                    (admitEntry nodeId hd st).1 (tr ++ [hd])
                  refine ⟨j + 1, by rw [hlen2]; omega, ?_, ?_⟩
                  · rw [htr]
                    simp [hheads]
                  · intro hb
                    obtain ⟨hj2, hbt2⟩ := hbt hb
                    refine ⟨by rw [hlen2]; omega, ?_⟩
                    rw [hadv]
                    exact hbt2
              · rw [if_neg hids0]
                by_cases hcap :
                    (if (admitEntry nodeId hd
                          { st with ctxs := st.ctxs ++ [ctxIds] }).2 = true then
                        count + 1
                      else count) ≥ maxE
                · rw [if_pos hcap]
                  refine ⟨1, by rw [hlen2]; omega, by simp [hheads],
                    fun hb => Bool.noConfusion hb⟩
                · rw [if_neg hcap]
                  obtain ⟨j, hj, htr, hbt⟩ := ihx
                    (if (admitEntry nodeId hd
                          { st with ctxs := st.ctxs ++ [ctxIds] }).2 = true then
                        count + 1
                      else count)
                    (admitEntry nodeId hd { st with ctxs := st.ctxs ++ [ctxIds] }).1
                    (tr ++ [hd])
                  refine ⟨j + 1, by rw [hlen2]; omega, ?_, ?_⟩
                  · rw [htr]
                    simp [hheads]
                  · intro hb
                    obtain ⟨hj2, hbt2⟩ := hbt hb
                    refine ⟨by rw [hlen2]; omega, ?_⟩
                    rw [hadv]
                    exact hbt2
        · simp only [hAW, if_false]
          by_cases hcap :
              (if (admitEntry nodeId hd st).2 = true then count + 1 else count) ≥
                maxE
          · rw [if_pos hcap]
            refine ⟨1, by rw [hlen2]; omega, by simp [hheads],
              fun hb => Bool.noConfusion hb⟩
          · rw [if_neg hcap]
            obtain ⟨j, hj, htr, hbt⟩ := ihx
              (if (admitEntry nodeId hd st).2 = true then count + 1 else count)
              (admitEntry nodeId hd st).1 (tr ++ [hd])
            refine ⟨j + 1, by rw [hlen2]; omega, ?_, ?_⟩
            · rw [htr]
              simp [hheads]
            · intro hb
              obtain ⟨hj2, hbt2⟩ := hbt hb
              refine ⟨by rw [hlen2]; omega, ?_⟩
              rw [hadv]
              exact hbt2
    | cons h2 t2 =>
      have hpg : popGroup (done ++ (k, hd, h2 :: t2) :: suffix') k =
          some (hd, done ++ (k, h2, t2) :: suffix') := by
        rw [popGroup_append done k _ hkdone]
        simp [popGroup]
      have hkseq : groupKeys ((k, hd, h2 :: t2) :: suffix') =
          k :: groupKeys suffix' := rfl
      have hheads : heads ((k, hd, h2 :: t2) :: suffix') =
          hd :: heads suffix' := rfl
      have hlen2 : ((k, hd, h2 :: t2) :: suffix').length =
          suffix'.length + 1 := rfl
      have hadv : advance ((k, hd, h2 :: t2) :: suffix') =
          (k, h2, t2) :: advance suffix' := rfl
      have hnd' : (groupKeys ((done ++ [(k, h2, t2)]) ++ suffix')).Nodup := by
        have hnd2 : (groupKeys done ++ k :: groupKeys suffix').Nodup := by
          simpa [groupKeys, List.map_append] using hnd
        simpa [groupKeys, List.map_append] using hnd2
      have ihx : ∀ (C : Nat) (S : ExpSt) (TR : List AdjEntry),
          ∃ j, j ≤ suffix'.length ∧
            (runPass maxE nodeId (groupKeys suffix')
                (done ++ (k, h2, t2) :: suffix') C S TR).tr =
              TR ++ (heads suffix').take j ∧
            ((runPass maxE nodeId (groupKeys suffix')
                  (done ++ (k, h2, t2) :: suffix') C S TR).brk = false →
              j = suffix'.length ∧
              (runPass maxE nodeId (groupKeys suffix')
                  (done ++ (k, h2, t2) :: suffix') C S TR).bt =
                done ++ (k, h2, t2) :: advance suffix') := by
        intro C S TR
        have h := ih (done ++ [(k, h2, t2)]) C S TR hnd'
        rwa [show (done ++ [(k, h2, t2)]) ++ suffix' =
            done ++ (k, h2, t2) :: suffix' by simp,
          show (done ++ [(k, h2, t2)]) ++ advance suffix' =
            done ++ (k, h2, t2) :: advance suffix' by simp] at h
      rw [hkseq]
      simp only [runPass, hpg]
      by_cases hdup : entryKey nodeId hd ∈ st.edgeSet
      · simp only [hdup, if_true]
        obtain ⟨j, hj, htr, hbt⟩ := ihx count st (tr ++ [hd])
        refine ⟨j + 1, by rw [hlen2]; omega, ?_, ?_⟩
        · rw [htr]
          simp [hheads]
        · intro hb
          obtain ⟨hj2, hbt2⟩ := hbt hb
          refine ⟨by rw [hlen2]; omega, ?_⟩
          rw [hadv]
          exact hbt2
      · simp only [hdup, if_false]
        by_cases hAW : hd.etype = "ASSOCIATED_WITH"
        · simp only [hAW, if_true]
          cases hv : is_associated_with_valid hd st.nodes st.ctxs with
          | mk b ctxIds =>
            cases b with
            | false =>
              simp only [hv]
              obtain ⟨j, hj, htr, hbt⟩ := ihx count
                { st with
                    pending := st.pending ++
                      [⟨(entryEndpoints nodeId hd).1, (entryEndpoints nodeId hd).2,
                        hd.other, hd, entryKey nodeId hd, ctxIds⟩] } (tr ++ [hd])
              refine ⟨j + 1, by rw [hlen2]; omega, ?_, ?_⟩
              · rw [htr]
                simp [hheads]
              · intro hb
                obtain ⟨hj2, hbt2⟩ := hbt hb
                refine ⟨by rw [hlen2]; omega, ?_⟩
                rw [hadv]
                exact hbt2
            | true =>
              simp only [hv]
              by_cases hids0 : ctxIds = ∅
              · rw [if_pos hids0]
                by_cases hcap :
                    (if (admitEntry nodeId hd st).2 = true then count + 1
                      else count) ≥ maxE
                · rw [if_pos hcap]
                  refine ⟨1, by rw [hlen2]; omega, by simp [hheads],
                    fun hb => Bool.noConfusion hb⟩
                · rw [if_neg hcap]
                  obtain ⟨j, hj, htr, hbt⟩ := ihx
                    (if (admitEntry nodeId hd st).2 = true then count + 1
                      else count)
                    (admitEntry nodeId hd st).1 (tr ++ [hd])
                  refine ⟨j + 1, by rw [hlen2]; omega, ?_, ?_⟩
                  · rw [htr]
                    simp [hheads]
                  · intro hb
                    obtain ⟨hj2, hbt2⟩ := hbt hb
                    refine ⟨by rw [hlen2]; omega, ?_⟩
                    rw [hadv]
                    exact hbt2
              · rw [if_neg hids0]
                by_cases hcap :
                    (if (admitEntry nodeId hd
                          { st with ctxs := st.ctxs ++ [ctxIds] }).2 = true then
                        count + 1
                      else count) ≥ maxE
                · rw [if_pos hcap]
                  refine ⟨1, by rw [hlen2]; omega, by simp [hheads],
                    fun hb => Bool.noConfusion hb⟩
                · rw [if_neg hcap]
                  obtain ⟨j, hj, htr, hbt⟩ := ihx
                    (if (admitEntry nodeId hd
                          { st with ctxs := st.ctxs ++ [ctxIds] }).2 = true then
                        count + 1
                      else count)
                    (admitEntry nodeId hd { st with ctxs := st.ctxs ++ [ctxIds] }).1
                    (tr ++ [hd])
                  refine ⟨j + 1, by rw [hlen2]; omega, ?_, ?_⟩
                  · rw [htr]
                    simp [hheads]
                  · intro hb
                    obtain ⟨hj2, hbt2⟩ := hbt hb
                    refine ⟨by rw [hlen2]; omega, ?_⟩
                    rw [hadv]
                    exact hbt2
        · simp only [hAW, if_false]
          by_cases hcap :
              (if (admitEntry nodeId hd st).2 = true then count + 1 else count) ≥
                maxE
          · rw [if_pos hcap]
            refine ⟨1, by rw [hlen2]; omega, by simp [hheads],
              fun hb => Bool.noConfusion hb⟩
          · rw [if_neg hcap]
            obtain ⟨j, hj, htr, hbt⟩ := ihx
              (if (admitEntry nodeId hd st).2 = true then count + 1 else count)
              (admitEntry nodeId hd st).1 (tr ++ [hd])
            refine ⟨j + 1, by rw [hlen2]; omega, ?_, ?_⟩
            · rw [htr]
              simp [hheads]
            · intro hb
              obtain ⟨hj2, hbt2⟩ := hbt hb
              refine ⟨by rw [hlen2]; omega, ?_⟩
              rw [hadv]
              exact hbt2

theorem groupKeys_advance_sublist (bt : List TGroup) :
    List.Sublist (groupKeys (advance bt)) (groupKeys bt) := by
  induction bt with
  | nil => exact List.Sublist.refl _
  | cons g rest ih =>
    obtain ⟨k, hd, tl⟩ := g
    cases tl with
    | nil =>
      show List.Sublist (groupKeys (advance rest)) (groupKeys ((k, hd, []) :: rest))
      exact List.Sublist.cons k ih
    | cons h2 t2 =>
      show List.Sublist (k :: groupKeys (advance rest)) (k :: groupKeys rest)
      exact List.Sublist.cons₂ k ih

theorem runWhile_rr (maxE : Nat) (nodeId : String) :
    ∀ (fuel : Nat) (bt : List TGroup) (count : Nat) (st : ExpSt)
      (tr : List AdjEntry), (groupKeys bt).Nodup →
      ∃ j, (runWhile maxE nodeId fuel bt count st tr).2.2.2 =
        tr ++ (roundRobin bt).take j := by
  intro fuel
  induction fuel with
  | zero =>
    intro bt count st tr _
    refine ⟨0, ?_⟩
    show tr = tr ++ List.take 0 (roundRobin bt)
    simp
  | succ fuel ih =>
    intro bt count st tr hnd
    rw [runWhile]
    by_cases hguard : count ≥ maxE ∨ bt = []
    · rw [if_pos hguard]
      exact ⟨0, by simp⟩
    · rw [if_neg hguard]
      have hbne : bt ≠ [] := (not_or.mp hguard).2
      have hrr := runPass_rr maxE nodeId bt [] count st tr (by simpa using hnd)
      rw [List.nil_append] at hrr
      obtain ⟨j1, hj1, htr1, hbt1⟩ := hrr
      have hrrbt : roundRobin bt = heads bt ++ roundRobin (advance bt) := by
        rw [roundRobin, dif_neg hbne]
      by_cases hbrk : (runPass maxE nodeId (groupKeys bt) bt count st tr).brk
      · simp only [hbrk, if_true]
        refine ⟨j1, ?_⟩
        rw [htr1, hrrbt,
          List.take_append_of_le_length (by simpa [heads] using hj1)]
      · simp only [hbrk, Bool.false_eq_true, if_false]
        obtain ⟨hj1e, hbteq⟩ := hbt1 (by simpa using hbrk)
        rw [List.nil_append] at hbteq
        have hnd' :
            (groupKeys (runPass maxE nodeId (groupKeys bt) bt count st tr).bt).Nodup := by
          rw [hbteq]
          exact hnd.sublist (groupKeys_advance_sublist bt)
        obtain ⟨j2, htr2⟩ := ih (runPass maxE nodeId (groupKeys bt) bt count st tr).bt
          (runPass maxE nodeId (groupKeys bt) bt count st tr).count
          (runPass maxE nodeId (groupKeys bt) bt count st tr).st
          (runPass maxE nodeId (groupKeys bt) bt count st tr).tr hnd'
        refine ⟨bt.length + j2, ?_⟩
        rw [htr2, htr1, hj1e, hrrbt, hbteq]
        have h1 : (heads bt).take bt.length = heads bt := by
          rw [show bt.length = (heads bt).length by simp [heads]]
          exact List.take_length _
        have h2 : (heads bt ++ roundRobin (advance bt)).take (bt.length + j2) =
            heads bt ++ (roundRobin (advance bt)).take j2 := by
          rw [show bt.length = (heads bt).length by simp [heads]]
          exact List.take_append _
        rw [h1, h2, List.append_assoc]

/-! ## Lemmas about the raw builders -/

theorem rawToEdge_ok (r : RawEdge) (h : ¬ missingField r) :
    rawToEdge r = .ok (stripRaw r) := by
  obtain ⟨f, t, ty, props, ctx⟩ := r
  simp only [missingField, not_or] at h
  obtain ⟨hf, ht, hty⟩ := h
  cases f with
  | none => exact absurd rfl hf
  | some fv =>
    cases t with
    | none => exact absurd rfl ht
    | some tv =>
      cases ty with
      | none => exact absurd rfl hty
      | some tyv => rfl

theorem rawToEdge_err (r : RawEdge) (h : missingField r) :
    rawToEdge r = .error () := by
  obtain ⟨f, t, ty, props, ctx⟩ := r
  cases f with
  | none => rfl
  | some fv =>
    cases t with
    | none => rfl
    | some tv =>
      cases ty with
      | none => rfl
      | some tyv => simp [missingField] at h

theorem mapM_rawToEdge_ok (rs : List RawEdge) (h : ∀ r ∈ rs, ¬ missingField r) :
    rs.mapM rawToEdge = .ok (rs.map stripRaw) := by
  induction rs with
  | nil => rfl
  | cons a l ih =>
    rw [List.mapM_cons, rawToEdge_ok a (h a (List.mem_cons_self a l)),
        ih (fun r hr => h r (List.mem_cons_of_mem a hr))]
    rfl

theorem mapM_rawToEdge_err (rs : List RawEdge) (h : ∃ r ∈ rs, missingField r) :
    rs.mapM rawToEdge = .error () := by
  induction rs with
  | nil => simp at h
  | cons a l ih =>
    obtain ⟨r, hr, hm⟩ := h
    rw [List.mapM_cons]
    rcases List.mem_cons.mp hr with heq | hmem
    · subst heq
      rw [rawToEdge_err r hm]
      rfl
    · cases ha : rawToEdge a with
      | error u => cases u; rfl
      | ok e => simp only [ih ⟨r, hmem, hm⟩]; rfl

/-! ## The two shapes of `expand` and the invariant of its final state -/

theorem expand_false_eq (edges : List Edge) (c : String) (lvl maxE : Nat) :
    expand edges c lvl maxE false =
      ((expandSt edges c lvl maxE).nodes, (expandSt edges c lvl maxE).edges) :=
  rfl

theorem expand_true_eq (edges : List Edge) (c : String) (lvl maxE : Nat) :
    expand edges c lvl maxE true =
      ((expandSt edges c lvl maxE).nodes,
        (expandSt edges c lvl maxE).edges ++
          (find_internal_edges (expandSt edges c lvl maxE).nodes edges
            (expandSt edges c lvl maxE).edgeSet).1) :=
  rfl

theorem expandSt_StOK (T : String → Prop) (hTA : T "ASSOCIATED_WITH")
    (edges : List Edge) (c : String) (lvl maxE : Nat)
    (hadjAll : ∀ nid : String, ∀ a ∈ build_adjacency edges nid, T a.etype) :
    StOK T (expandSt edges c lvl maxE) := by
  refine expandLevels_StOK T (build_adjacency edges) maxE hadjAll hTA lvl [c]
    ⟨[c], [], [], [], [], []⟩ ⟨?_, ?_, ?_⟩ ?_
  · intro e he
    simp at he
  · intro p hp
    simp at hp
  · intro x hx
    simp at hx
  · intro x hx
    exact hx

/-- With a target no neighbor list ever contains (and a distinct start), the
search returns the empty list, for any fuel. -/
theorem find_all_paths_bfs_absent_end (start endId : String)
    (adjUf : String → List String) (tbl : List ((String × String) × EdgeInfo))
    (maxPaths maxDepth fuel : Nat) (hne : start ≠ endId)
    (habs : ∀ cur, endId ∉ adjUf cur) :
    find_all_paths_bfs start endId adjUf tbl maxPaths maxDepth fuel = [] := by
  rw [find_all_paths_bfs, if_neg hne]
  have hfound :
      (bfsCollect start endId adjUf tbl maxPaths maxDepth fuel).found = [] := by
    rw [bfsCollect]
    exact bfsLoop_found_stable adjUf tbl endId maxPaths maxDepth habs fuel _ _
  simp [hfound, stableSort]

/-! ## The claims -/

/-- C1: for every path returned by `find_paths`, the intersection of the
context-id sets of the consecutive Symptom–Symptom `ASSOCIATED_WITH` edges
along the path is non-empty and equals the shared-context set reported with
the path; a path with no such edges is reported with the empty set. -/
theorem C1_shared_context (edges : List Edge) (start endId : String)
    (maxPaths maxDepth : Nat) (p : List String) (c : Finset String)
    (h : (p, c) ∈ find_paths edges start endId maxPaths maxDepth) :
    (ssContextSets (edgeLookup edges) p = [] ∧ c = ∅) ∨
      (ssContextSets (edgeLookup edges) p ≠ [] ∧
        c = interAll (ssContextSets (edgeLookup edges) p) ∧ c ≠ ∅) := by
  rw [find_paths] at h
  by_cases hse : start = endId
  · rw [find_all_paths_bfs, if_pos hse] at h
    rw [List.mem_singleton, Prod.mk.injEq] at h
    obtain ⟨rfl, rfl⟩ := h
    exact Or.inl ⟨rfl, rfl⟩
  · have hfo := foundOK_of_mem start endId (adjU edges) (edgeLookup edges)
      maxPaths maxDepth (bfsFuel edges maxDepth) p c hse h
    exact validate_true p (edgeLookup edges) c hfo.1

theorem C1_shared_context_witness :
    ((["S_A", "S_B"], ({"D_X"} : Finset String)) ∈
        find_paths awEdges "S_A" "S_B" 3 6) ∧
      ((ssContextSets (edgeLookup awEdges) ["S_A", "S_B"] = [] ∧
          ({"D_X"} : Finset String) = ∅) ∨
        (ssContextSets (edgeLookup awEdges) ["S_A", "S_B"] ≠ [] ∧
          ({"D_X"} : Finset String) =
            interAll (ssContextSets (edgeLookup awEdges) ["S_A", "S_B"]) ∧
          ({"D_X"} : Finset String) ≠ ∅)) :=
  ⟨by decide,
    C1_shared_context awEdges "S_A" "S_B" 3 6 ["S_A", "S_B"] {"D_X"}
      (by decide)⟩

/-- C6: for every call to `find_paths` and every path it returns, the hop
count `len(path) - 1` is at most `max_depth`. -/
theorem C6_depth_bound (edges : List Edge) (start endId : String)
    (maxPaths maxDepth : Nat) (p : List String) (c : Finset String)
    (h : (p, c) ∈ find_paths edges start endId maxPaths maxDepth) :
    p.length - 1 ≤ maxDepth := by
  rw [find_paths] at h
  by_cases hse : start = endId
  · rw [find_all_paths_bfs, if_pos hse] at h
    rw [List.mem_singleton, Prod.mk.injEq] at h
    obtain ⟨rfl, -⟩ := h
    simp
  · exact (foundOK_of_mem start endId (adjU edges) (edgeLookup edges)
      maxPaths maxDepth (bfsFuel edges maxDepth) p c hse h).2.1

theorem C6_depth_bound_witness :
    ((["S_A", "S_B"], ({"D_X"} : Finset String)) ∈
        find_paths awEdges "S_A" "S_B" 3 6) ∧
      (["S_A", "S_B"] : List String).length - 1 ≤ 6 :=
  ⟨by decide,
    C6_depth_bound awEdges "S_A" "S_B" 3 6 ["S_A", "S_B"] {"D_X"} (by decide)⟩

/-- C7: for every call to `find_paths` and every path it returns, every node
id appears at most once in the path. -/
theorem C7_no_revisit (edges : List Edge) (start endId : String)
    (maxPaths maxDepth : Nat) (p : List String) (c : Finset String)
    (h : (p, c) ∈ find_paths edges start endId maxPaths maxDepth) :
    p.Nodup := by
  rw [find_paths] at h
  by_cases hse : start = endId
  · rw [find_all_paths_bfs, if_pos hse] at h
    rw [List.mem_singleton, Prod.mk.injEq] at h
    obtain ⟨rfl, -⟩ := h
    exact List.nodup_singleton start
  · exact (foundOK_of_mem start endId (adjU edges) (edgeLookup edges)
      maxPaths maxDepth (bfsFuel edges maxDepth) p c hse h).2.2

theorem C7_no_revisit_witness :
    ((["S_A", "S_B"], ({"D_X"} : Finset String)) ∈
        find_paths awEdges "S_A" "S_B" 3 6) ∧
      (["S_A", "S_B"] : List String).Nodup :=
  ⟨by decide,
    C7_no_revisit awEdges "S_A" "S_B" 3 6 ["S_A", "S_B"] {"D_X"} (by decide)⟩

/-- C8: the returned path list is non-decreasing in hop count and, for a
non-degenerate query, is exactly the collected candidates sorted by
`(hop count, first-hop frequency)` and truncated to `max_paths`. -/
theorem C8_ordering (edges : List Edge) (start endId : String)
    (maxPaths maxDepth : Nat) :
    (find_paths edges start endId maxPaths maxDepth).Pairwise
        (fun a b => a.1.length ≤ b.1.length) ∧
      (start ≠ endId →
        find_paths edges start endId maxPaths maxDepth =
          (stableSort
            (sortKeyLe (bfsCollect start endId (adjU edges) (edgeLookup edges)
              maxPaths maxDepth (bfsFuel edges maxDepth)).fhc)
            (bfsCollect start endId (adjU edges) (edgeLookup edges) maxPaths
              maxDepth (bfsFuel edges maxDepth)).found).take maxPaths) := by
  constructor
  · by_cases hse : start = endId
    · rw [find_paths, find_all_paths_bfs, if_pos hse]
      simp
    · rw [find_paths, find_all_paths_bfs, if_neg hse]
      have hp := pairwise_stableSort
        (sortKeyLe (bfsCollect start endId (adjU edges) (edgeLookup edges)
          maxPaths maxDepth (bfsFuel edges maxDepth)).fhc)
        (sortKeyLe_total _) (sortKeyLe_trans _)
        (bfsCollect start endId (adjU edges) (edgeLookup edges) maxPaths
          maxDepth (bfsFuel edges maxDepth)).found
      have hp2 := List.Pairwise.sublist (List.take_sublist maxPaths _) hp
      exact hp2.imp fun hh => sortKeyLe_length _ _ _ hh
  · intro hne
    rw [find_paths, find_all_paths_bfs, if_neg hne]

theorem C8_ordering_witness :
    (find_paths awEdges "S_A" "S_B" 3 6).Pairwise
        (fun a b => a.1.length ≤ b.1.length) ∧
      find_paths awEdges "S_A" "S_B" 3 6 =
        (stableSort
          (sortKeyLe (bfsCollect "S_A" "S_B" (adjU awEdges)
            (edgeLookup awEdges) 3 6 (bfsFuel awEdges 6)).fhc)
          (bfsCollect "S_A" "S_B" (adjU awEdges) (edgeLookup awEdges) 3 6
            (bfsFuel awEdges 6)).found).take 3 :=
  ⟨(C8_ordering awEdges "S_A" "S_B" 3 6).1,
    (C8_ordering awEdges "S_A" "S_B" 3 6).2 (by decide)⟩

/-- C2 counterexample: the catalog's only edge is an `ASSOCIATED_WITH` edge
with an absent context (empty context-id set), yet `find_paths` traverses it
and returns the path through it — it is on the BFS frontier. -/
theorem C2_counterexample :
    (ctxlessAW.map fun e => e.etype) = ["ASSOCIATED_WITH"] ∧
      (ctxlessAW.map fun e => get_context_ids e.context) = [∅] ∧
      find_paths ctxlessAW "S_A" "M_B" 3 6 = [(["S_A", "M_B"], ∅)] := by
  decide

/-- C2 (amended): in `expand` a context-less `ASSOCIATED_WITH` edge is
indeed never traversable: without the closure pass every returned
association edge carries a non-empty context-id set.  `find_paths`, by
contrast, puts every edge of the catalog on its BFS frontier and rejects
empty contexts only at path completion and only for Symptom–Symptom pairs
(see the counterexample). -/
theorem C2_expand_context_nonempty (edges : List Edge) (center_id : String)
    (lvl maxE : Nat) (e : EdgeData)
    (h : e ∈ (expand edges center_id lvl maxE false).2)
    (haw : e.etype = "ASSOCIATED_WITH") :
    get_context_ids e.context ≠ ∅ := by
  rw [expand_false_eq] at h
  exact ((expandSt_StOK (fun _ => True) trivial edges center_id lvl maxE
    (fun nid a ha => trivial)).1 e h).2.2.2 haw

theorem C2_expand_context_nonempty_witness :
    (awEgoEdge ∈ (expand egoEdges "D_X" 2 7 false).2 ∧
        awEgoEdge.etype = "ASSOCIATED_WITH") ∧
      get_context_ids awEgoEdge.context ≠ ∅ :=
  ⟨⟨by decide, rfl⟩,
    C2_expand_context_nonempty egoEdges "D_X" 2 7 awEgoEdge (by decide) rfl⟩

/-- C3 counterexample: the catalog's only edge is a `RULES_OUT` edge, yet
`find_paths` walks it to discover the target and returns the path through
it — path search does not exclude the negative edge types. -/
theorem C3_counterexample :
    (rulesOutEdges.map fun e => e.etype) = ["RULES_OUT"] ∧
      find_paths rulesOutEdges "S_A" "D_X" 3 6 = [(["S_A", "D_X"], ∅)] := by
  decide

/-- C3 (amended): ego expansion does exclude the negative edge types: with
`include_closure=False` no `RULES_OUT` or `PERTINENT_NEGATIVE` edge appears
in the returned edge list.  Path search, by contrast, traverses every edge
type (see the counterexample). -/
theorem C3_expand_excludes_negative (edges : List Edge) (center_id : String)
    (lvl maxE : Nat) (e : EdgeData)
    (h : e ∈ (expand edges center_id lvl maxE false).2) :
    e.etype ≠ "RULES_OUT" ∧ e.etype ≠ "PERTINENT_NEGATIVE" := by
  rw [expand_false_eq] at h
  exact ((expandSt_StOK
    (fun ty => ty ≠ "RULES_OUT" ∧ ty ≠ "PERTINENT_NEGATIVE")
    ⟨by decide, by decide⟩ edges center_id lvl maxE
    (fun nid a ha => build_adjacency_not_excluded edges nid a ha)).1
      e h).2.2.1

theorem C3_expand_excludes_negative_witness :
    hsEdge ∈ (expand mixedEdges "D_X" 1 7 false).2 ∧
      hsEdge.etype ≠ "RULES_OUT" ∧ hsEdge.etype ≠ "PERTINENT_NEGATIVE" :=
  ⟨by decide,
    C3_expand_excludes_negative mixedEdges "D_X" 1 7 hsEdge (by decide)⟩

/-- C4: for every frontier node, the selection examines the node's edges in
round-robin order across its distinct edge types (the examination trace is a
prefix of the round-robin linearisation of the per-type queues), the node
set grows by exactly `new_neighbors_count` nodes (edges to already-known
neighbors are recorded without consuming budget), that count never exceeds
`max_fanout`, and the loop stops only when the budget is met or every
candidate edge of the node is exhausted. -/
theorem C4_round_robin (adj : String → List AdjEntry) (maxE : Nat)
    (st : ExpSt) (nodeId : String) :
    (∃ j,
      (runWhile maxE nodeId (btSize (groupByType (adj nodeId)) + 1)
          (groupByType (adj nodeId)) 0 st []).2.2.2 =
        (roundRobin (groupByType (adj nodeId))).take j) ∧
      (processNode adj maxE st nodeId).nodes.length =
        st.nodes.length +
          (runWhile maxE nodeId (btSize (groupByType (adj nodeId)) + 1)
            (groupByType (adj nodeId)) 0 st []).2.1 ∧
      (runWhile maxE nodeId (btSize (groupByType (adj nodeId)) + 1)
          (groupByType (adj nodeId)) 0 st []).2.1 ≤ maxE ∧
      ((runWhile maxE nodeId (btSize (groupByType (adj nodeId)) + 1)
          (groupByType (adj nodeId)) 0 st []).1 = [] ∨
        (runWhile maxE nodeId (btSize (groupByType (adj nodeId)) + 1)
            (groupByType (adj nodeId)) 0 st []).2.1 = maxE) := by
  have hnd := groupKeys_groupByType_nodup (adj nodeId)
  obtain ⟨j, hj⟩ := runWhile_rr maxE nodeId
    (btSize (groupByType (adj nodeId)) + 1) (groupByType (adj nodeId)) 0 st
    [] hnd
  rw [List.nil_append] at hj
  have hcnt := runWhile_count maxE nodeId
    (btSize (groupByType (adj nodeId)) + 1) (groupByType (adj nodeId)) 0 st
    [] (Nat.zero_le maxE)
  have hstop := runWhile_stop maxE nodeId
    (btSize (groupByType (adj nodeId)) + 1) (groupByType (adj nodeId)) 0 st
    [] (Nat.lt_succ_self _) (Nat.zero_le maxE)
  refine ⟨⟨j, hj⟩, ?_, hcnt.2.1, hstop⟩
  have hpn : processNode adj maxE st nodeId =
      (runWhile maxE nodeId (btSize (groupByType (adj nodeId)) + 1)
        (groupByType (adj nodeId)) 0 st []).2.2.1 := rfl
  rw [hpn]
  have hc := hcnt.2.2
  omega

/-- C5 counterexample: a collection whose second record is missing its
"from" field.  Both adjacency builders abort with the `KeyError` instead of
skipping the record: not even the well-formed first record makes it into an
adjacency view. -/
theorem C5_counterexample :
    missingField (rawRecords.get ⟨1, by decide⟩) ∧
      build_adjacency_undirected_raw rawRecords = .error () ∧
      build_adjacency_raw rawRecords = .error () :=
  ⟨Or.inl rfl, rfl, rfl⟩

/-- C5 (amended): a record missing a required "from"/"to"/"type" field is
fatal, not skipped: with any such record in the collection both builders
abort with the `KeyError`, and only a fully well-formed collection produces
the adjacency views. -/
theorem C5_missing_field_fatal (rs : List RawEdge) :
    ((∃ r ∈ rs, missingField r) →
      build_adjacency_undirected_raw rs = .error () ∧
        build_adjacency_raw rs = .error ()) ∧
      ((∀ r ∈ rs, ¬ missingField r) →
        build_adjacency_undirected_raw rs =
            .ok (build_adjacency_undirected (rs.map stripRaw)) ∧
          build_adjacency_raw rs = .ok (build_adjacency (rs.map stripRaw))) := by
  constructor
  · intro hbad
    constructor
    · rw [build_adjacency_undirected_raw, mapM_rawToEdge_err rs hbad]
      rfl
    · rw [build_adjacency_raw, mapM_rawToEdge_err rs hbad]
      rfl
  · intro hgood
    constructor
    · rw [build_adjacency_undirected_raw, mapM_rawToEdge_ok rs hgood]
      rfl
    · rw [build_adjacency_raw, mapM_rawToEdge_ok rs hgood]
      rfl

theorem C5_missing_field_fatal_witness :
    (build_adjacency_undirected_raw rawRecords = .error () ∧
        build_adjacency_raw rawRecords = .error ()) ∧
      (build_adjacency_undirected_raw goodRaw =
          .ok (build_adjacency_undirected (goodRaw.map stripRaw)) ∧
        build_adjacency_raw goodRaw =
          .ok (build_adjacency (goodRaw.map stripRaw))) :=
  ⟨(C5_missing_field_fatal rawRecords).1
      ⟨{ efrom := none, eto := some "S_B", etype := some "HAS_SYMPTOM" },
        by decide, Or.inl rfl⟩,
    (C5_missing_field_fatal goodRaw).2 (by
      intro r hr
      simp only [goodRaw, List.mem_singleton] at hr
      subst hr
      simp [missingField])⟩

/-- C9 counterexample: `S_X` is absent from the catalog (its only edge joins
`S_A` and `D_X`), yet `find_paths` from `S_X` to itself returns the
non-empty list holding the trivial path, not the empty list. -/
theorem C9_counterexample :
    (rulesOutEdges.map fun e => e.efrom) = ["S_A"] ∧
      (rulesOutEdges.map fun e => e.eto) = ["D_X"] ∧
      find_paths rulesOutEdges "S_X" "S_X" 3 6 = [(["S_X"], ∅)] := by
  decide

/-- C9 (amended): an id absent from the catalog never faults.  `find_paths`
between the absent id and any distinct id returns the empty list in both
directions; the degenerate query from the id to itself, however, returns
the trivial one-node path (not the empty list); and `expand` returns the
bare center with no edges. -/
theorem C9_absent_id (edges : List Edge) (x : String)
    (lvl maxE maxPaths maxDepth : Nat) (cross : Bool)
    (h : ∀ e ∈ edges, e.efrom ≠ x ∧ e.eto ≠ x) :
    (∀ y, x ≠ y →
      find_paths edges x y maxPaths maxDepth = [] ∧
        find_paths edges y x maxPaths maxDepth = []) ∧
      find_paths edges x x maxPaths maxDepth = [([x], ∅)] ∧
      expand edges x lvl maxE cross = ([x], []) := by
  refine ⟨?_, ?_, expand_absent edges x lvl maxE cross h⟩
  · intro y hxy
    constructor
    · exact find_all_paths_bfs_absent_start x y (adjU edges)
        (edgeLookup edges) maxPaths maxDepth (bfsFuel edges maxDepth) hxy
        (adjU_absent edges x h)
    · exact find_all_paths_bfs_absent_end y x (adjU edges) (edgeLookup edges)
        maxPaths maxDepth (bfsFuel edges maxDepth) (fun he => hxy he.symm)
        (adjU_target_absent edges x h)
  · rw [find_paths, find_all_paths_bfs, if_pos rfl]

theorem C9_absent_id_witness :
    (∀ e ∈ mixedEdges, e.efrom ≠ "S_Z" ∧ e.eto ≠ "S_Z") ∧
      find_paths mixedEdges "S_Z" "S_A" 3 6 = [] ∧
      find_paths mixedEdges "S_A" "S_Z" 3 6 = [] ∧
      find_paths mixedEdges "S_Z" "S_Z" 3 6 = [(["S_Z"], ∅)] ∧
      expand mixedEdges "S_Z" 2 7 true = (["S_Z"], []) :=
  ⟨by decide,
    ((C9_absent_id mixedEdges "S_Z" 2 7 3 6 true (by decide)).1 "S_A"
      (by decide)).1,
    ((C9_absent_id mixedEdges "S_Z" 2 7 3 6 true (by decide)).1 "S_A"
      (by decide)).2,
    (C9_absent_id mixedEdges "S_Z" 2 7 3 6 true (by decide)).2.1,
    (C9_absent_id mixedEdges "S_Z" 2 7 3 6 true (by decide)).2.2⟩

/-- C10: for every call to `expand`, with or without the closure pass, both
endpoints of every returned edge are contained in the returned node set. -/
theorem C10_endpoints (edges : List Edge) (center_id : String)
    (lvl maxE : Nat) (cross : Bool) (e : EdgeData)
    (h : e ∈ (expand edges center_id lvl maxE cross).2) :
    e.efrom ∈ (expand edges center_id lvl maxE cross).1 ∧
      e.eto ∈ (expand edges center_id lvl maxE cross).1 := by
  have hok := expandSt_StOK (fun _ => True) trivial edges center_id lvl maxE
    (fun nid a ha => trivial)
  cases cross with
  | false =>
    rw [expand_false_eq] at h ⊢
    exact ⟨(hok.1 e h).1, (hok.1 e h).2.1⟩
  | true =>
    rw [expand_true_eq] at h ⊢
    rcases List.mem_append.mp h with hm | hm
    · exact ⟨(hok.1 e hm).1, (hok.1 e hm).2.1⟩
    · exact find_internal_edges_endpoints
        (expandSt edges center_id lvl maxE).nodes edges
        (expandSt edges center_id lvl maxE).edgeSet e hm

theorem C10_endpoints_witness :
    roClosureEdge ∈ (expand mixedEdges "D_X" 1 7 true).2 ∧
      roClosureEdge.efrom ∈ (expand mixedEdges "D_X" 1 7 true).1 ∧
      roClosureEdge.eto ∈ (expand mixedEdges "D_X" 1 7 true).1 :=
  ⟨by decide, C10_endpoints mixedEdges "D_X" 1 7 true roClosureEdge (by decide)⟩
